import Mathlib

set_option autoImplicit false

/-!
Verification of the placeholder-resolution and dynamic-table-expansion engine
of `generate_pptx.py`.

The development shallowly embeds the core of the script: Python strings are
`List Char`, the python-pptx document model (runs, paragraphs, cells, tables,
shapes) is a family of plain structures, and every loop of the source is a
structurally recursive (where needed, fuel-indexed) Lean function.  External
collaborators (MSAL token acquisition, the Dataverse HTTP fetch, `json.loads`,
`datetime.now`, file output) are parameters of the embedded functions, exactly
as the specification delimits them.
-/

namespace GenPPTX

/-! ## Python string machinery over `List Char` -/

abbrev Chars := List Char

/-- Models Python `s.startswith(pat)`: `true` iff `pat` is an initial segment of `s`. -/
def leadsWith : Chars → Chars → Bool
  | [], _ => true
  | _ :: _, [] => false
  | p :: ps, c :: cs => p == c && leadsWith ps cs

/-- Models the Python substring test `pat in s`. -/
def containsSub (pat : Chars) : Chars → Bool
  | [] => leadsWith pat []
  | s@(_ :: cs) => leadsWith pat s || containsSub pat cs

/-- Models Python `s.find(pat)`: index of the leftmost occurrence, `none` for Python's `-1`. -/
def findSub (pat : Chars) : Chars → Option Nat
  | [] => if leadsWith pat [] then some 0 else none
  | s@(_ :: cs) => if leadsWith pat s then some 0 else (findSub pat cs).map (· + 1)

/-- Models Python `s.find(pat, start)` (absolute index of the leftmost occurrence at or
after `start`, `none` for `-1`). -/
def findSubFrom (s pat : Chars) (start : Nat) : Option Nat :=
  (findSub pat (s.drop start)).map (· + start)

/-- Body of CPython `str.replace` for a nonempty pattern: leftmost, non-overlapping,
all occurrences.  The `Nat` argument is fuel; `s.length` is always enough because
every step consumes at least one character of `s`. -/
def replaceAux (pat rep : Chars) : Nat → Chars → Chars
  | _, [] => []
  | 0, c :: cs => c :: cs
  | n + 1, c :: cs =>
    if leadsWith pat (c :: cs) then rep ++ replaceAux pat rep n (List.drop (pat.length - 1) cs)
    else c :: replaceAux pat rep n cs

/-- Interleaving used by CPython `str.replace` with an empty pattern:
`interFill rep [a, b] = [a] ++ rep ++ [b] ++ rep`. -/
def interFill (rep : Chars) : Chars → Chars
  | [] => []
  | c :: cs => c :: (rep ++ interFill rep cs)

/-- Models Python `s.replace(pat, rep)` (all occurrences).  For the empty pattern CPython
inserts `rep` at every character boundary: `"ab".replace("", "X") = "XaXbX"`. -/
def pyReplace (s pat rep : Chars) : Chars :=
  match pat with
  | [] => rep ++ interFill rep s
  | _ :: _ => replaceAux pat rep s.length s

/-- Characters stripped by Python `str.strip()` (the ASCII whitespace actually relevant
to the cell texts handled here). -/
def pySpace (c : Char) : Bool :=
  c == ' ' || c == '\t' || c == '\n' || c == '\r' || c == '\x0b' || c == '\x0c'

/-- Models Python `s.strip()`. -/
def pyStrip (s : Chars) : Chars :=
  ((s.dropWhile pySpace).reverse.dropWhile pySpace).reverse

/-- Models the Python slice `s[8:-2]` used to recover a table-placeholder name from the
anchor cell text: drop the first 8 and the last 2 characters (empty when too short). -/
def slice8m2 (s : Chars) : Chars :=
  (s.take (s.length - 2)).drop 8

/-- Concatenation of a list of strings (Python `str.join` on the empty separator). -/
def catChars (l : List Chars) : Chars :=
  l.foldr (fun a b => a ++ b) []

/-- Join with a single separator character (python-pptx joins cell paragraphs with a
newline in the `text` getter). -/
def interJoin (sep : Char) : List Chars → Chars
  | [] => []
  | [x] => x
  | x :: xs => x ++ sep :: interJoin sep xs

/-- Decimal digit character. -/
def digitChar (d : Nat) : Char := Char.ofNat (48 + d)

/-- Fuel-indexed decimal rendering of a natural number (`n + 1` fuel always suffices). -/
def natCharsAux : Nat → Nat → Chars
  | 0, _ => []
  | f + 1, n => if n < 10 then [digitChar n] else natCharsAux f (n / 10) ++ [digitChar (n % 10)]

/-- Decimal rendering of a natural number, as Python `str` produces it. -/
def natChars (n : Nat) : Chars := natCharsAux (n + 1) n

/-- Decimal rendering of an integer, as Python `str` produces it. -/
def intChars : Int → Chars
  | .ofNat n => natChars n
  | .negSucc n => '-' :: natChars (n + 1)

/-- The opening token marker. -/
def openMark : Chars := ['{', '{']

/-- The closing token marker. -/
def closeMark : Chars := ['}', '}']

/-- The fixed fallback / "no data" literal `n/a`. -/
def NO_DATA : Chars := ['n', '/', 'a']

def fallbackAux : Nat → Chars → Option Chars
  | 0, _ => none
  | n + 1, s =>
    if containsSub openMark s && containsSub closeMark s then
      let startIdx := (findSub openMark s).getD 0
      let endIdx :=
        match findSubFrom s closeMark startIdx with
        | some j => j + 2
        | none => 1
      let tag := (s.take endIdx).drop startIdx
      fallbackAux n (pyReplace s tag NO_DATA)
    else some s

/-- Predicate `noPair x s` holds when no two adjacent characters of `s` are both `x`. -/
def noPair (x : Char) : Chars → Bool
  | [] => true
  | [_] => true
  | a :: b :: t => !(a == x && b == x) && noPair x (b :: t)

/-- The fallback loop as a total function; by `fallbackAux_total` the fuel is enough and
the `getD` default is never used. -/
def fallbackPass (s : Chars) : Chars := (fallbackAux (s.length + 2) s).getD s

inductive Value : Type where
  | vstr : Chars → Value
  | vint : Int → Value
  | vbool : Bool → Value
  | vnull : Value
  | varr : List Value → Value
  | vdict : List (Chars × Value) → Value

/-- Single-quote character (used by Python `repr` for strings). -/
def sq : Char := Char.ofNat 39

mutual

/-- Python `repr` of a content value (used by `str` on containers). -/
def pyRepr : Value → Chars
  | .vstr s => sq :: (s ++ [sq])
  | .vint n => intChars n
  | .vbool b => if b then ['T', 'r', 'u', 'e'] else ['F', 'a', 'l', 's', 'e']
  | .vnull => ['N', 'o', 'n', 'e']
  | .varr l => '[' :: (pyReprList l ++ [']'])
  | .vdict d => '{' :: (pyReprDict d ++ ['}'])

/-- Comma-separated `repr` of the elements of a list. -/
def pyReprList : List Value → Chars
  | [] => []
  | [v] => pyRepr v
  | v :: rest => pyRepr v ++ ',' :: ' ' :: pyReprList rest

/-- Comma-separated `repr` of the entries of a dict. -/
def pyReprDict : List (Chars × Value) → Chars
  | [] => []
  | [(k, v)] => (sq :: (k ++ [sq])) ++ ':' :: ' ' :: pyRepr v
  | (k, v) :: rest => ((sq :: (k ++ [sq])) ++ ':' :: ' ' :: pyRepr v) ++ ',' :: ' ' :: pyReprDict rest

end

/-- Models Python `str(value)` for content values. -/
def pyStr : Value → Chars
  | .vstr s => s
  | .vint n => intChars n
  | .vbool b => if b then ['T', 'r', 'u', 'e'] else ['F', 'a', 'l', 's', 'e']
  | .vnull => ['N', 'o', 'n', 'e']
  | .varr l => pyRepr (.varr l)
  | .vdict d => pyRepr (.vdict d)

/-- A content map: a Python dict in insertion order (keys unique in any dict built by
`json.loads` or by the engine itself). -/
abbrev Dict := List (Chars × Value)

/-- Models Python `d[k]` lookup (`d.get(k)` without default): first matching key. -/
def dictGet : Dict → Chars → Option Value
  | [], _ => none
  | (k, v) :: rest, key => if k = key then some v else dictGet rest key

/-- Models Python `d[k] = v`: replaces the value of an existing key in place, appends a
new key at the end. -/
def dictSet : Dict → Chars → Value → Dict
  | [], key, v => [(key, v)]
  | (k, w) :: rest, key, v =>
    if k = key then (k, v) :: rest else (k, w) :: dictSet rest key v

/-- Models Python `item.get(header, default)` where `item` is an arbitrary value:
`none` models the `AttributeError` raised when `item` is not a dict. -/
def pyGetAttrGet : Value → Chars → Value → Option Value
  | .vdict d, key, dflt => some ((dictGet d key).getD dflt)
  | _, _, _ => none

/-- The known-placeholder substitution loop over `content.items()` (insertion order). -/
def resolveKnownText (content : Dict) (s : Chars) : Chars :=
  content.foldl
    (fun t kv =>
      let tag := openMark ++ kv.1 ++ closeMark
      if containsSub tag t then pyReplace t tag (pyStr kv.2) else t)
    s

/-- Full text resolution of one concatenated paragraph string. -/
def resolveText (content : Dict) (s : Chars) : Chars :=
  fallbackPass (resolveKnownText content s)

/-- A text run: its text and explicit font attributes (`none` = inherited). -/
structure Run where
  text : Chars
  size : Option Nat
  bold : Option Bool
  deriving DecidableEq

/-- A paragraph: its own default font attributes (`paragraph.font`, stored on `pPr`)
and its runs. -/
structure Paragraph where
  defSize : Option Nat
  defBold : Option Bool
  runs : List Run
  deriving DecidableEq

/-- A table cell (its text frame's paragraphs; python-pptx text frames always hold at
least one paragraph). -/
structure Cell where
  paragraphs : List Paragraph
  deriving DecidableEq

/-- A table: rows of cells plus the style identifier stamped into `tblPr`. -/
structure Table where
  cells : List (List Cell)
  styleId : Chars
  deriving DecidableEq

/-- Graphic-frame geometry in EMU (left, top, width, height). -/
structure Geom where
  left : Int
  top : Int
  width : Int
  height : Int
  deriving DecidableEq

/-- A slide shape: either a shape with a text frame (`has_text_frame`) or a graphic
frame holding a table (`has_table`). -/
inductive Shape where
  | textS (paragraphs : List Paragraph)
  | tableS (frame : Geom) (tbl : Table)
  deriving DecidableEq

/-- EMU value of `Pt(n)`. -/
def ptEmu (n : Nat) : Nat := 12700 * n

/-- A run holding `s` with no explicit font attributes, as created by the `text` setter. -/
def mkRun (s : Chars) : Run := ⟨s, none, none⟩

/-- The empty paragraph of a freshly created cell. -/
def freshParagraph : Paragraph := ⟨none, none, []⟩

/-- A freshly created (empty) table cell. -/
def freshCell : Cell := ⟨[freshParagraph]⟩

/-- The cell produced by assigning `cell.text = s`: one fresh paragraph, one run. -/
def mkTextCell (s : Chars) : Cell := ⟨[⟨none, none, [mkRun s]⟩]⟩

/-- python-pptx `_Cell.text = s` (the previous content is discarded entirely). -/
def setCellText (s : Chars) (_c : Cell) : Cell := mkTextCell s

/-- Concatenated text of one paragraph. -/
def paragraphText (p : Paragraph) : Chars := catChars (p.runs.map Run.text)

/-- python-pptx `_Cell.text` getter: paragraph texts joined by a newline. -/
def cellText (c : Cell) : Chars := interJoin (Char.ofNat 10) (c.paragraphs.map paragraphText)

/-- Replace the element at an index (identity when out of range). -/
def updAt {α : Type} (f : α → α) : Nat → List α → List α
  | _, [] => []
  | 0, x :: xs => f x :: xs
  | n + 1, x :: xs => x :: updAt f n xs

/-- Element at an index with a default (Python indexing, total). -/
def nthD {α : Type} (d : α) : List α → Nat → α
  | [], _ => d
  | x :: _, 0 => x
  | _ :: xs, n + 1 => nthD d xs n

/-- Models `table.cell(r, c)` (python-pptx raises on out-of-range access; the engine only
accesses cells of tables that possess them, so the default is never relevant). -/
def getCell (t : Table) (r c : Nat) : Cell := nthD freshCell (nthD [] t.cells r) c

/-- Models `table.cell(r, c).text = s`. -/
def setTableCellText (t : Table) (r c : Nat) (s : Chars) : Table :=
  { t with cells := updAt (fun row => updAt (setCellText s) c row) r t.cells }

/-- Apply a run transformation to every run of every paragraph of every cell, following
the `iter_cells` traversal of the source (lines 86-90). -/
def mapTableRuns (f : Run → Run) (t : Table) : Table :=
  { t with cells :=
      t.cells.map (fun row =>
        row.map (fun cell =>
          ⟨cell.paragraphs.map (fun p => { p with runs := p.runs.map f })⟩)) }

/-- Models `set_table_font_size(table, font_size)` (lines 93-98): sets
`run.font.size = Pt(font_size)` on every run of every cell. -/
def set_table_font_size (t : Table) (font_size : Nat) : Table :=
  mapTableRuns (fun r => { r with size := some (ptEmu font_size) }) t

/-- The blank table produced by `slide.shapes.add_table(rows, cols, ...)`: every cell
holds one empty paragraph with no runs. -/
def freshTable (rows cols : Nat) : Table :=
  ⟨List.replicate rows (List.replicate cols freshCell), []⟩

/-- Models `create_table` (lines 101-115): adds a blank table, stamps the configured
style identifier, then assigns the captured font size and bold flag to every run of
every cell.  (A freshly added table has no runs at all, so this second step touches
nothing; it is nevertheless embedded faithfully.) -/
def create_table (styleId : Chars) (rows cols : Nat)
    (font_size : Option Nat) (font_bold : Option Bool) : Table :=
  let t := { freshTable rows cols with styleId := styleId }
  mapTableRuns (fun r => { r with size := font_size, bold := font_bold }) t

/-- The header-insertion loop of `process_table_placeholder` (lines 156-158):
`for col_idx, header in enumerate(headers): new_table.cell(0, col_idx).text = header`. -/
def insertHeaders : Table → Nat → List Chars → Table
  | t, _, [] => t
  | t, i, h :: hs => insertHeaders (setTableCellText t 0 i h) (i + 1) hs

/-- The inner data loop (lines 162-164): one row's cells from one array element;
`none` models the `AttributeError` of `item.get` on a non-dict element. -/
def insertRowCells : Table → Nat → Nat → Value → List Chars → Option Table
  | t, _, _, _, [] => some t
  | t, r, c, item, h :: hs =>
    match pyGetAttrGet item h (.vstr []) with
    | none => none
    | some v => insertRowCells (setTableCellText t r c (pyStr v)) r (c + 1) item hs

/-- The outer data loop (lines 161-164): `for row_idx, item in enumerate(value, start=1)`. -/
def insertRows : Table → Nat → List Value → List Chars → Option Table
  | t, _, [], _ => some t
  | t, r, item :: rest, hs =>
    match insertRowCells t r 0 item hs with
    | none => none
    | some t' => insertRows t' (r + 1) rest hs

/-- Result of processing one table placeholder: the shape is kept (possibly mutated in
place) or removed and replaced by a new table appended to the shape tree. -/
inductive TableOutcome where
  | keep (t : Table)
  | replaceBy (t : Table)
  deriving DecidableEq

/-- The placeholder name extracted from a table's anchor cell (line 120). -/
def anchorName (t : Table) : Chars := pyStrip (slice8m2 (cellText (getCell t 0 0)))

/-- Models `process_table_placeholder` (lines 118-167) on the table itself.  The anchor
cell text is sliced by `[8:-2]` and stripped, the value is looked up with default `[]`;
a missing/non-list/empty value degrades the kept table to the `n/a` marker (lines
126-128); a non-dict first element aborts with no mutation (lines 136-137); otherwise
the placeholder is removed and a new table is created, populated and uniformly set to
font size 11 (lines 148-167).  `none` models an uncaught Python exception. -/
def process_table_placeholder (styleId : Chars) (content : Dict) (t : Table) :
    Option TableOutcome :=
  let placeholder_name := anchorName t
  let value := (dictGet content placeholder_name).getD (.varr [])
  match value with
  | .varr (first :: rest) =>
    match first with
    | .vdict d0 =>
      let headers := d0.map Prod.fst
      let rows := (first :: rest).length + 1
      let cols := headers.length
      let font_size := (nthD freshParagraph (getCell t 0 0).paragraphs 0).defSize
      let font_bold := (nthD freshParagraph (getCell t 0 0).paragraphs 0).defBold
      let newT := insertHeaders (create_table styleId rows cols font_size font_bold) 0 headers
      match insertRows newT 1 (first :: rest) headers with
      | none => none
      | some t2 => some (.replaceBy (set_table_font_size t2 11))
    | _ => some (.keep t)
  | _ => some (.keep (set_table_font_size (setTableCellText t 0 0 NO_DATA) 11))

/-- One step of the table pass on a shape (`if shape.has_table`, lines 230-231):
non-table shapes are skipped, table shapes go through `process_table_placeholder`.
The captured geometry is reused for the replacement (lines 140-143, 153). -/
inductive StepResult where
  | keep (s : Shape)
  | swap (s : Shape)
  deriving DecidableEq

def processShapeStep (styleId : Chars) (content : Dict) : Shape → Option StepResult
  | .textS ps => some (.keep (.textS ps))
  | .tableS g t =>
    (process_table_placeholder styleId content t).map (fun o =>
      match o with
      | .keep t' => .keep (.tableS g t')
      | .replaceBy t' => .swap (.tableS g t'))

/-- The live iteration `for shape in slide.shapes:` of the table pass (lines 229-231).
python-pptx iterates the underlying lxml child list; the lxml iterator fetches the
successor of the current element before yielding it, so removing the current shape does
not stop the walk, while a table appended behind the last yielded position is visited
in turn — but a table appended while the *last* element is being processed is never
visited.  `swap` removes the current element and appends the new shape at the end of
the tree.  Fuel bounds the number of visited shapes (the Python loop can genuinely
diverge when every appended table is itself a valid placeholder). -/
def livePass (body : Shape → Option StepResult) : Nat → List Shape → List Shape →
    Option (List Shape)
  | _, done, [] => some done
  | _, done, [c] =>
    (body c).map (fun r =>
      match r with
      | .keep c' => done ++ [c']
      | .swap n => done ++ [n])
  | 0, _, _ :: _ :: _ => none
  | fuel + 1, done, c :: c2 :: rest =>
    match body c with
    | none => none
    | some (.keep c') => livePass body fuel (done ++ [c']) (c2 :: rest)
    | some (.swap n) => livePass body fuel done (c2 :: rest ++ [n])

/-- Modelled from the spec: the snapshot iteration of section 4.5/9 ("iterate over a
snapshot (copied list of shape handles) taken before any mutation, then apply
removals/insertions against the live document").  Each shape of the pre-pass snapshot
is processed exactly once; kept shapes stay in place, replacement tables are appended
at the end of the tree.  This is the comparison point for claim C2; the source itself
iterates the live collection. -/
def snapshotPass (body : Shape → Option StepResult) (shapes : List Shape) :
    Option (List Shape) :=
  (shapes.mapM body).map (fun results =>
    (results.filterMap (fun r => match r with | .keep s => some s | .swap _ => none)) ++
    (results.filterMap (fun r => match r with | .keep _ => none | .swap s => some s)))

/-- The text pass over one paragraph (lines 181-204): concatenate the run texts,
resolve, clear every run and write the result into the first run (a paragraph with no
runs is left untouched). -/
def processParagraph (content : Dict) (p : Paragraph) : Paragraph :=
  let fulltext := catChars (p.runs.map Run.text)
  let resolved := resolveText content fulltext
  match p.runs with
  | [] => p
  | r :: rs =>
    { p with runs := { r with text := resolved } :: rs.map (fun q => { q with text := [] }) }

/-- Models `process_text_placeholders` (lines 170-204): every shape with a text frame
has each of its paragraphs resolved; table graphic frames have no text frame and are
untouched.  This pass does not change the shape list structurally. -/
def process_text_placeholders (content : Dict) (shapes : List Shape) : List Shape :=
  shapes.map (fun s =>
    match s with
    | .textS ps => .textS (ps.map (processParagraph content))
    | .tableS g t => .tableS g t)

/-- One slide of one record (lines 224-231): the text pass, then the table pass over
the live shape collection. -/
def processSlide (styleId : Chars) (content : Dict) (fuel : Nat) (shapes : List Shape) :
    Option (List Shape) :=
  livePass (processShapeStep styleId content) fuel [] (process_text_placeholders content shapes)

/-- An input record: the optional serialized-JSON field `jeschro_content`. -/
structure Record where
  jeschro_content : Option Chars

/-- The injected key `jobid`. -/
def JOBID_KEY : Chars := ['j', 'o', 'b', 'i', 'd']

/-- The injected key `jobdate`. -/
def JOBDATE_KEY : Chars := ['j', 'o', 'b', 'd', 'a', 't', 'e']

/-- Lines 221-222: inject the derived keys, overwriting record-supplied entries. -/
def injectDerived (jobid jobdate : Chars) (d : Dict) : Dict :=
  dictSet (dictSet d JOBID_KEY (.vstr jobid)) JOBDATE_KEY (.vstr jobdate)

/-- Lines 213-222: build one record's content map.  `parse` is `json.loads` (an
external function of the embedding; `none` models `json.JSONDecodeError`, which makes
the record be skipped via `continue`).  `none` here means "record skipped". -/
def buildContent (parse : Chars → Option Dict) (jobid jobdate : Chars) (r : Record) :
    Option Dict :=
  match r.jeschro_content with
  | none => some (injectDerived jobid jobdate [])
  | some raw =>
    match parse raw with
    | none => none
    | some d => some (injectDerived jobid jobdate d)

/-- One record's pass over all slides (lines 212-231); a record whose embedded JSON
fails to parse leaves the document untouched (`continue`). -/
def processRecord (parse : Chars → Option Dict) (styleId : Chars)
    (jobid jobdate : Chars) (fuel : Nat) (slides : List (List Shape)) (r : Record) :
    Option (List (List Shape)) :=
  match buildContent parse jobid jobdate r with
  | none => some slides
  | some content => slides.mapM (processSlide styleId content fuel)

/-- Models `generate_ppt` (lines 207-238) on the document model: fold the records over
the slide list.  `jobdate` stands for `datetime.now().strftime(...)` and `parse` for
`json.loads`, both external; saving the file is out of scope. -/
def generate_ppt (parse : Chars → Option Dict) (styleId : Chars)
    (jobid jobdate : Chars) (fuel : Nat) (records : List Record)
    (slides : List (List Shape)) : Option (List (List Shape)) :=
  records.foldl
    (fun acc r => acc.bind (fun ss => processRecord parse styleId jobid jobdate fuel ss r))
    (some slides)

/-- A paragraph contains only resolvable tokens when, after substituting every known
key's token, no token marker remains in the concatenated text. -/
def onlyResolvableTokens (content : Dict) (p : Paragraph) : Bool :=
  !containsSub openMark (resolveKnownText content (catChars (p.runs.map Run.text))) &&
  !containsSub closeMark (resolveKnownText content (catChars (p.runs.map Run.text)))

/-- Flatten one level of nesting. -/
def flatJoin {α : Type} (l : List (List α)) : List α :=
  l.foldr (fun a b => a ++ b) []

/-- All runs of one cell, in `iter_cells` order. -/
def runsOfCell (c : Cell) : List Run :=
  flatJoin (c.paragraphs.map Paragraph.runs)

/-- All runs of a table, in `iter_cells` order. -/
def tableRuns (t : Table) : List Run :=
  flatJoin (t.cells.map (fun row => flatJoin (row.map runsOfCell)))

/-- The cell transformation performed by the run-mapping traversals. -/
def cellMapRuns (f : Run → Run) (c : Cell) : Cell :=
  ⟨c.paragraphs.map (fun p => { p with runs := p.runs.map f })⟩

/-- Does a value qualify as table data (`isinstance(value, list) and value`)? -/
def isNonemptyArr : Value → Bool
  | .varr (_ :: _) => true
  | _ => false

/-- The dict payload of a value (the engine only uses it on dict values). -/
def asDict : Value → Dict
  | .vdict d => d
  | _ => []

/-- Total version of `insertRowCells` for dict elements. -/
def writeRowCells : Table → Nat → Nat → Dict → List Chars → Table
  | t, _, _, _, [] => t
  | t, r, c, d, h :: hs =>
    writeRowCells (setTableCellText t r c (pyStr ((dictGet d h).getD (.vstr [])))) r (c + 1) d hs

/-- Total version of `insertRows` for all-dict arrays. -/
def writeRows : Table → Nat → List Value → List Chars → Table
  | t, _, [], _ => t
  | t, r, item :: rest, hs => writeRows (writeRowCells t r 0 (asDict item) hs) (r + 1) rest hs

/-- The key `items`. -/
def itemsKey : Chars := ['i', 't', 'e', 'm', 's']

/-- An anchor-cell text following the placeholder convention: 8 prefix characters,
the name, 2 suffix characters. -/
def anchorItems : Chars :=
  ['X', 'X', 'X', 'X', 'X', 'X', 'X', 'X', 'i', 't', 'e', 'm', 's', 'Y', 'Y']

/-- A 1-by-1 placeholder table whose anchor paragraph carries font size `Pt(20)`
(254000 EMU) and bold. -/
def tPlace : Table := ⟨[[⟨[⟨some 254000, some true, [mkRun anchorItems]⟩]⟩]], []⟩

/-- The key `items` bound to the one-record array `[{"a": 1}]`. -/
def contentOne : Dict := [(itemsKey, .varr [.vdict [(['a'], .vint 1)]])]

/-- The key `items` bound to a mixed array whose first element is a record but whose second is
the bare number `2`. -/
def contentMixed : Dict := [(itemsKey, .varr [.vdict [(['a'], .vint 1)], .vint 2])]

/-- The key `items` bound to the specification's example array `[{"a":1,"b":2},{"a":3,"b":4}]`. -/
def contentAB : Dict :=
  [(itemsKey, .varr [.vdict [(['a'], .vint 1), (['b'], .vint 2)],
                     .vdict [(['a'], .vint 3), (['b'], .vint 4)]])]

/-- An ordinary 1-by-2 table (anchor text `T`, second cell styled at 254000 EMU). -/
def tTwoCells : Table :=
  ⟨[[mkTextCell ['T'], ⟨[⟨none, none, [⟨['z'], some 254000, none⟩]⟩]⟩]], []⟩

/-- An ordinary 1-by-1 table with anchor text `T`. -/
def tOneCell : Table := ⟨[[mkTextCell ['T']]], []⟩

/-- Zero geometry (for concrete instances). -/
def geom0 : Geom := ⟨0, 0, 0, 0⟩

/-- The per-shape effect of the table pass when every lookup fails: text shapes are
untouched, every table shape is degraded to the `n/a` marker. -/
def noDataShape : Shape → Shape
  | .textS p => .textS p
  | .tableS gm t => .tableS gm (set_table_font_size (setTableCellText t 0 0 NO_DATA) 11)

/-! ## Facts about the string machinery -/

theorem leadsWith_iff (pat : Chars) : ∀ s : Chars, leadsWith pat s = true ↔ ∃ r, s = pat ++ r := by
  induction pat with
  | nil =>
    intro s
    simp [leadsWith]
  | cons p ps ih =>
    intro s
    cases s with
    | nil =>
      simp [leadsWith]
    | cons c cs =>
      simp only [leadsWith, Bool.and_eq_true, beq_iff_eq, ih, List.cons_append]
      constructor
      · rintro ⟨rfl, r, rfl⟩
        exact ⟨r, rfl⟩
      · rintro ⟨r, h⟩
        cases h
        exact ⟨rfl, r, rfl⟩

theorem leadsWith_length_le {pat s : Chars} (h : leadsWith pat s = true) :
    pat.length ≤ s.length := by
  rcases (leadsWith_iff pat s).1 h with ⟨r, rfl⟩
  simp

theorem containsSub_iff (pat : Chars) : ∀ s : Chars,
    containsSub pat s = true ↔ ∃ l r, s = l ++ pat ++ r := by
  intro s
  induction s with
  | nil =>
    simp only [containsSub, leadsWith_iff]
    constructor
    · rintro ⟨r, h⟩
      exact ⟨[], r, by simpa using h⟩
    · rintro ⟨l, r, h⟩
      refine ⟨r, ?_⟩
      cases l with
      | nil => simpa using h
      | cons x xs => simp at h
  | cons c cs ih =>
    simp only [containsSub, Bool.or_eq_true, leadsWith_iff, ih]
    constructor
    · rintro (⟨r, h⟩ | ⟨l, r, h⟩)
      · exact ⟨[], r, by simpa using h⟩
      · exact ⟨c :: l, r, by simp [h]⟩
    · rintro ⟨l, r, h⟩
      cases l with
      | nil => exact Or.inl ⟨r, by simpa using h⟩
      | cons x xs =>
        simp only [List.cons_append, List.cons.injEq] at h
        exact Or.inr ⟨xs, r, h.2⟩

theorem containsSub_of_mid {mid pat s : Chars} (h : containsSub mid s = true)
    (hdec : ∃ u v, mid = u ++ pat ++ v) : containsSub pat s = true := by
  rcases (containsSub_iff mid s).1 h with ⟨l, r, rfl⟩
  rcases hdec with ⟨u, v, rfl⟩
  exact (containsSub_iff pat _).2 ⟨l ++ u, v ++ r, by simp⟩

theorem findSub_isSome {pat s : Chars} (h : containsSub pat s = true) :
    (findSub pat s).isSome = true := by
  induction s with
  | nil =>
    simp only [containsSub] at h
    simp [findSub, h]
  | cons c cs ih =>
    simp only [containsSub, Bool.or_eq_true] at h
    by_cases hl : leadsWith pat (c :: cs) = true
    · simp [findSub, hl]
    · rcases h with h | h
      · exact absurd h hl
      · have := ih h
        simp only [findSub, hl, if_false]
        cases hfs : findSub pat cs with
        | none => simp [hfs] at this
        | some i => simp [hfs]

theorem findSub_spec {pat s : Chars} {i : Nat} (h : findSub pat s = some i) :
    leadsWith pat (s.drop i) = true ∧ i + pat.length ≤ s.length := by
  induction s generalizing i with
  | nil =>
    simp only [findSub] at h
    split at h
    · rename_i hl
      cases h
      simpa using And.intro hl (leadsWith_length_le hl)
    · cases h
  | cons c cs ih =>
    simp only [findSub] at h
    split at h
    · rename_i hl
      cases h
      exact ⟨hl, by simpa using leadsWith_length_le hl⟩
    · cases hfs : findSub pat cs with
      | none => rw [hfs] at h; cases h
      | some j =>
        rw [hfs] at h
        simp only [Option.map_some'] at h
        cases h
        rcases ih hfs with ⟨h1, h2⟩
        constructor
        · simpa using h1
        · simp only [List.length_cons]
          omega

theorem findSubFrom_spec {s pat : Chars} {b j : Nat} (hp : pat ≠ []) (h : findSubFrom s pat b = some j) :
    b ≤ j ∧ leadsWith pat (s.drop j) = true ∧ j + pat.length ≤ s.length := by
  unfold findSubFrom at h
  cases hfs : findSub pat (s.drop b) with
  | none => rw [hfs] at h; cases h
  | some j' =>
    rw [hfs] at h
    simp only [Option.map_some'] at h
    cases h
    rcases findSub_spec hfs with ⟨h1, h2⟩
    have hp1 : 1 ≤ pat.length := by
      cases pat with
      | nil => exact absurd rfl hp
      | cons x xs => simp
    have hdd : (s.drop b).drop j' = s.drop (j' + b) := by
      rw [List.drop_drop, Nat.add_comm]
    have hlen : (s.drop b).length = s.length - b := by simp
    refine ⟨Nat.le_add_left _ _, ?_, ?_⟩
    · rw [← hdd]; exact h1
    · rw [hlen] at h2; omega

theorem findSubFrom_isSome_zero {s pat : Chars} (h : containsSub pat s = true) :
    (findSubFrom s pat 0).isSome = true := by
  unfold findSubFrom
  have := @findSub_isSome pat s h
  cases hfs : findSub pat s with
  | none => rw [hfs] at this; simp at this
  | some i => simp [hfs]

theorem replaceAux_length_le (pat rep : Chars) (hp : pat ≠ [])
    (hrep : rep.length ≤ pat.length) :
    ∀ n s, s.length ≤ n → (replaceAux pat rep n s).length ≤ s.length := by
  intro n
  induction n with
  | zero =>
    intro s hs
    cases s with
    | nil => simp [replaceAux]
    | cons c cs => simp at hs
  | succ m ih =>
    intro s hs
    cases s with
    | nil => simp [replaceAux]
    | cons c cs =>
      simp only [replaceAux]
      by_cases hl : leadsWith pat (c :: cs) = true
      · rw [if_pos hl]
        have hple : pat.length ≤ (c :: cs).length := leadsWith_length_le hl
        have hp1 : 1 ≤ pat.length := by
          cases pat with
          | nil => exact absurd rfl hp
          | cons x xs => simp
        have hdl : (List.drop (pat.length - 1) cs).length = cs.length - (pat.length - 1) := by
          simp
        have hrec := ih (List.drop (pat.length - 1) cs) (by simp at hs ⊢; omega)
        simp only [List.length_append, List.length_cons] at *
        omega
      · rw [if_neg hl]
        have hrec := ih cs (by simp at hs; omega)
        simp only [List.length_cons]
        omega

theorem replaceAux_length_lt (pat rep : Chars) (hp : pat ≠ [])
    (hrep : rep.length < pat.length) :
    ∀ n s, s.length ≤ n → containsSub pat s = true →
      (replaceAux pat rep n s).length < s.length := by
  intro n
  induction n with
  | zero =>
    intro s hs hc
    cases s with
    | nil =>
      rw [containsSub] at hc
      rcases (leadsWith_iff pat []).1 hc with ⟨r, hr⟩
      cases pat with
      | nil => exact absurd rfl hp
      | cons x xs => simp at hr
    | cons c cs => simp at hs
  | succ m ih =>
    intro s hs hc
    cases s with
    | nil =>
      rw [containsSub] at hc
      rcases (leadsWith_iff pat []).1 hc with ⟨r, hr⟩
      cases pat with
      | nil => exact absurd rfl hp
      | cons x xs => simp at hr
    | cons c cs =>
      simp only [replaceAux]
      by_cases hl : leadsWith pat (c :: cs) = true
      · rw [if_pos hl]
        have hple : pat.length ≤ (c :: cs).length := leadsWith_length_le hl
        have hp1 : 1 ≤ pat.length := by
          cases pat with
          | nil => exact absurd rfl hp
          | cons x xs => simp
        have hrec := replaceAux_length_le pat rep hp (Nat.le_of_lt hrep)
          m (List.drop (pat.length - 1) cs) (by simp at hs ⊢; omega)
        simp only [List.length_append, List.length_cons, List.length_drop] at *
        omega
      · rw [if_neg hl]
        have hc' : containsSub pat cs = true := by
          rw [containsSub, Bool.or_eq_true] at hc
          rcases hc with hc | hc
          · exact absurd hc hl
          · exact hc
        have hrec := ih cs (by simp at hs; omega) hc'
        simp only [List.length_cons]
        omega

theorem containsSub_pair_eq_false_of_noPair (x : Char) :
    ∀ s : Chars, noPair x s = true → containsSub [x, x] s = false := by
  intro s
  induction s with
  | nil => intro _; rfl
  | cons a l ih =>
    intro h
    cases l with
    | nil => simp [containsSub, leadsWith]
    | cons b t =>
      simp only [noPair, Bool.and_eq_true, Bool.not_eq_true', Bool.and_eq_false_iff] at h
      have hrest := ih h.2
      have hlw : leadsWith [x, x] (a :: b :: t) = false := by
        simp only [leadsWith, Bool.and_eq_false_iff]
        rcases h.1 with hax | hbx
        · left
          rw [beq_eq_false_iff_ne] at hax ⊢
          exact Ne.symm hax
        · right; left
          rw [beq_eq_false_iff_ne] at hbx ⊢
          exact Ne.symm hbx
      show (leadsWith [x, x] (a :: b :: t) || containsSub [x, x] (b :: t)) = false
      rw [hlw, hrest]
      rfl

theorem noPair_interp (x : Char) (hn : x ≠ 'n') (hsl : x ≠ '/') (ha : x ≠ 'a') :
    ∀ s : Chars, noPair x (NO_DATA ++ interFill NO_DATA s) = true := by
  have e1 : ('n' == x) = false := by rw [beq_eq_false_iff_ne]; exact Ne.symm hn
  have e2 : ('/' == x) = false := by rw [beq_eq_false_iff_ne]; exact Ne.symm hsl
  have e3 : ('a' == x) = false := by rw [beq_eq_false_iff_ne]; exact Ne.symm ha
  intro s
  induction s with
  | nil =>
    show (!('n' == x && '/' == x) && noPair x ['/', 'a']) = true
    rw [e1, Bool.false_and, Bool.not_false, Bool.true_and]
    show (!('/' == x && 'a' == x) && noPair x ['a']) = true
    rw [e2, Bool.false_and, Bool.not_false, Bool.true_and]
    rfl
  | cons c cs ih =>
    show noPair x ('n' :: '/' :: 'a' :: c :: (NO_DATA ++ interFill NO_DATA cs)) = true
    have s4 : noPair x (c :: (NO_DATA ++ interFill NO_DATA cs)) = true := by
      show (!(c == x && 'n' == x) && noPair x ('n' :: ('/' :: 'a' :: interFill NO_DATA cs))) = true
      rw [e1, Bool.and_false, Bool.not_false, Bool.true_and]
      exact ih
    show (!('n' == x && '/' == x) && noPair x ('/' :: 'a' :: c :: (NO_DATA ++ interFill NO_DATA cs))) = true
    rw [e1, Bool.false_and, Bool.not_false, Bool.true_and]
    show (!('/' == x && 'a' == x) && noPair x ('a' :: c :: (NO_DATA ++ interFill NO_DATA cs))) = true
    rw [e2, Bool.false_and, Bool.not_false, Bool.true_and]
    show (!('a' == x && c == x) && noPair x (c :: (NO_DATA ++ interFill NO_DATA cs))) = true
    rw [e3, Bool.false_and, Bool.not_false, Bool.true_and]
    exact s4

theorem containsSub_pair_interp (x : Char) (hn : x ≠ 'n') (hsl : x ≠ '/') (ha : x ≠ 'a') :
    ∀ s : Chars, containsSub [x, x] (NO_DATA ++ interFill NO_DATA s) = false := by
  intro s
  exact containsSub_pair_eq_false_of_noPair x _ (noPair_interp x hn hsl ha s)

/-- Wrapper for `pyReplace` length decrease (the replacement is strictly shorter than
the pattern and the pattern occurs). -/
theorem pyReplace_length_lt {s pat rep : Chars} (hp : pat ≠ [])
    (hrep : rep.length < pat.length) (hc : containsSub pat s = true) :
    (pyReplace s pat rep).length < s.length := by
  cases pat with
  | nil => exact absurd rfl hp
  | cons p ps =>
    show (replaceAux (p :: ps) rep s.length s).length < s.length
    exact replaceAux_length_lt (p :: ps) rep (by simp) hrep s.length s (Nat.le_refl _) hc

theorem fallbackAux_mono : ∀ n m : Nat, ∀ s t : Chars,
    fallbackAux n s = some t → n ≤ m → fallbackAux m s = some t := by
  intro n
  induction n with
  | zero => intro m s t h _; cases h
  | succ k ih =>
    intro m s t h hle
    cases m with
    | zero => omega
    | succ m' =>
      rw [fallbackAux] at h ⊢
      by_cases hg : (containsSub openMark s && containsSub closeMark s) = true
      · rw [if_pos hg] at h ⊢
        exact ih m' _ t h (by omega)
      · rw [if_neg hg] at h ⊢
        exact h

theorem fallbackAux_exit : ∀ n : Nat, ∀ s t : Chars, fallbackAux n s = some t →
    (containsSub openMark t && containsSub closeMark t) = false := by
  intro n
  induction n with
  | zero => intro s t h; cases h
  | succ k ih =>
    intro s t h
    rw [fallbackAux] at h
    by_cases hg : (containsSub openMark s && containsSub closeMark s) = true
    · rw [if_pos hg] at h
      exact ih _ t h
    · rw [if_neg hg] at h
      cases h
      exact Bool.eq_false_iff.2 hg

theorem fallbackAux_of_guard_false {s : Chars} (n : Nat)
    (h : (containsSub openMark s && containsSub closeMark s) = false) :
    fallbackAux (n + 1) s = some s := by
  rw [fallbackAux, if_neg (by simp [h])]

/-- Main termination fact: fuel `s.length + 2` always suffices for the fallback loop. -/
theorem fallbackAux_total : ∀ N : Nat, ∀ s : Chars, s.length ≤ N →
    ∃ t, fallbackAux (s.length + 2) s = some t := by
  intro N
  induction N with
  | zero =>
    intro s hs
    cases s with
    | nil => exact ⟨[], rfl⟩
    | cons c cs => simp at hs
  | succ N ih =>
    intro s hs
    by_cases hg : (containsSub openMark s && containsSub closeMark s) = true
    · have hg' := hg
      rw [Bool.and_eq_true] at hg'
      have hopen : containsSub openMark s = true := hg'.1
      have hclose : containsSub closeMark s = true := hg'.2
      have hfsome := @findSub_isSome openMark s hopen
      cases hfs : findSub openMark s with
      | none => rw [hfs] at hfsome; cases hfsome
      | some b =>
        rcases findSub_spec hfs with ⟨hlw, hblen⟩
        cases hfind : findSubFrom s closeMark b with
        | some j =>
          rcases findSubFrom_spec (by simp [closeMark]) hfind with ⟨hbj, hlwc, hjlen⟩
          -- the close marker cannot start inside the open marker
          rcases (leadsWith_iff openMark (s.drop b)).1 hlw with ⟨r, hr⟩
          rcases (leadsWith_iff closeMark (s.drop j)).1 hlwc with ⟨r', hr'⟩
          have hj2len : j + 2 ≤ s.length := by
            have h2 : closeMark.length = 2 := rfl
            omega
          have hj2 : b + 2 ≤ j := by
            rcases Nat.lt_or_ge j (b + 2) with hj | hj
            · have hcase : j = b ∨ j = b + 1 := by omega
              rcases hcase with rfl | rfl
              · rw [hr'] at hr
                simp [openMark, closeMark] at hr
              · have h1 : (s.drop b).drop 1 = s.drop (b + 1) := by
                  rw [List.drop_drop, Nat.add_comm]
                have hth : s.drop (b + 1) = '{' :: r := by
                  rw [← h1, hr]
                  rfl
                rw [hr'] at hth
                simp [openMark, closeMark] at hth
            · exact hj
          set tag := (s.take (j + 2)).drop b with htag
          have htaglen : tag.length = j + 2 - b := by
            rw [htag, List.length_drop, List.length_take, Nat.min_eq_left hj2len]
          have htagne : tag ≠ [] := by
            intro hnil
            rw [hnil] at htaglen
            simp at htaglen
            omega
          have hdecomp : s = s.take b ++ tag ++ s.drop (j + 2) := by
            rw [htag]
            have h1 : s.take b ++ (s.take (j + 2)).drop b = s.take (j + 2) := by
              have h2 : s.take b = (s.take (j + 2)).take b := by
                rw [List.take_take, Nat.min_eq_left (by omega)]
              rw [h2, List.take_append_drop]
            rw [h1, List.take_append_drop]
          have htagin : containsSub tag s = true :=
            (containsSub_iff tag s).2 ⟨s.take b, s.drop (j + 2), by simpa using hdecomp⟩
          have hlt : (pyReplace s tag NO_DATA).length < s.length := by
            refine pyReplace_length_lt htagne ?_ htagin
            have h3 : NO_DATA.length = 3 := rfl
            omega
          rcases ih (pyReplace s tag NO_DATA) (by omega) with ⟨t, ht⟩
          refine ⟨t, ?_⟩
          rw [fallbackAux, if_pos hg]
          simp only [hfs, Option.getD_some, hfind]
          exact fallbackAux_mono _ _ _ _ ht (by omega)
        | none =>
          have hbpos : 1 ≤ b := by
            rcases Nat.eq_zero_or_pos b with rfl | h
            · have := @findSubFrom_isSome_zero s closeMark hclose
              rw [show findSubFrom s closeMark 0 = none from hfind] at this
              cases this
            · exact h
          have htagnil : (s.take 1).drop b = [] := by
            apply List.drop_eq_nil_of_le
            calc (s.take 1).length ≤ 1 := by simp
            _ ≤ b := hbpos
          have hnoopen : containsSub openMark (pyReplace s [] NO_DATA) = false := by
            show containsSub ['{', '{'] (NO_DATA ++ interFill NO_DATA s) = false
            exact containsSub_pair_interp '{' (by decide) (by decide) (by decide) s
          refine ⟨NO_DATA ++ interFill NO_DATA s, ?_⟩
          rw [fallbackAux, if_pos hg]
          simp only [hfs, Option.getD_some, hfind, htagnil]
          have hguard2 : (containsSub openMark (pyReplace s [] NO_DATA) &&
              containsSub closeMark (pyReplace s [] NO_DATA)) = false := by
            rw [hnoopen]
            rfl
          exact fallbackAux_of_guard_false s.length hguard2
    · exact ⟨s, fallbackAux_of_guard_false _ (Bool.eq_false_iff.2 hg)⟩

theorem fallbackPass_spec (s : Chars) :
    fallbackAux (s.length + 2) s = some (fallbackPass s) := by
  rcases fallbackAux_total s.length s (Nat.le_refl _) with ⟨t, ht⟩
  rw [fallbackPass, ht]
  rfl

theorem fallbackPass_no_marker_pair (s : Chars) :
    (containsSub openMark (fallbackPass s) && containsSub closeMark (fallbackPass s)) = false :=
  fallbackAux_exit _ _ _ (fallbackPass_spec s)

theorem fallbackPass_of_guard_false {s : Chars}
    (h : (containsSub openMark s && containsSub closeMark s) = false) :
    fallbackPass s = s := by
  have := fallbackAux_of_guard_false (s := s) (s.length + 1) h
  rw [fallbackPass, this]
  rfl

theorem dictGet_dictSet_same (d : Dict) (k : Chars) (v : Value) :
    dictGet (dictSet d k v) k = some v := by
  induction d with
  | nil => simp [dictSet, dictGet]
  | cons kv rest ih =>
    rcases kv with ⟨k', w⟩
    by_cases hk : k' = k
    · simp [dictSet, dictGet, hk]
    · simp [dictSet, dictGet, hk, ih]

theorem dictGet_dictSet_other (d : Dict) (k k' : Chars) (v : Value) (hne : k ≠ k') :
    dictGet (dictSet d k v) k' = dictGet d k' := by
  induction d with
  | nil => simp [dictSet, dictGet, hne]
  | cons kv rest ih =>
    rcases kv with ⟨k0, w⟩
    by_cases hk : k0 = k
    · subst hk
      simp [dictSet, dictGet, hne]
    · simp [dictSet, dictGet, hk, ih]

theorem resolveKnownText_of_no_pair (content : Dict) {t : Chars}
    (h : (containsSub openMark t && containsSub closeMark t) = false) :
    resolveKnownText content t = t := by
  induction content with
  | nil => rfl
  | cons kv rest ih =>
    unfold resolveKnownText
    rw [List.foldl_cons]
    have hguard : containsSub (openMark ++ kv.1 ++ closeMark) t = false := by
      cases hcc : containsSub (openMark ++ kv.1 ++ closeMark) t with
      | false => rfl
      | true =>
        have ho : containsSub openMark t = true :=
          containsSub_of_mid hcc ⟨[], kv.1 ++ closeMark, by simp⟩
        have hcl : containsSub closeMark t = true :=
          containsSub_of_mid hcc ⟨openMark ++ kv.1, [], by simp⟩
        rw [ho, hcl] at h
        cases h
    simp only [hguard, Bool.false_eq_true, if_false]
    exact ih

theorem resolveText_idem (content : Dict) (s : Chars) :
    resolveText content (resolveText content s) = resolveText content s := by
  have hpair := fallbackPass_no_marker_pair (resolveKnownText content s)
  show fallbackPass (resolveKnownText content (fallbackPass (resolveKnownText content s))) = _
  rw [resolveKnownText_of_no_pair content hpair, fallbackPass_of_guard_false hpair]
  rfl

theorem map_text_clear (rs : List Run) :
    (rs.map (fun q => { q with text := ([] : Chars) })).map Run.text =
      List.replicate rs.length [] := by
  induction rs with
  | nil => rfl
  | cons a l ih => simp [ih, List.replicate_succ]

theorem catChars_clear (rs : List Run) :
    catChars ((rs.map (fun q => { q with text := ([] : Chars) })).map Run.text) = [] := by
  rw [map_text_clear]
  induction rs with
  | nil => rfl
  | cons a l ih => simpa [catChars, List.replicate_succ] using ih

theorem catChars_cons (x : Chars) (l : List Chars) : catChars (x :: l) = x ++ catChars l := rfl

theorem map_clear_clear (rs : List Run) :
    (rs.map (fun q => { q with text := ([] : Chars) })).map
        (fun q => { q with text := ([] : Chars) }) =
      rs.map (fun q => { q with text := ([] : Chars) }) := by
  rw [List.map_map]
  rfl

theorem processParagraph_eq (content : Dict) (p : Paragraph) (r : Run) (rs : List Run)
    (hr : p.runs = r :: rs) :
    processParagraph content p =
      { p with runs :=
          { r with text := resolveText content (catChars ((r :: rs).map Run.text)) }
          :: rs.map (fun q => { q with text := [] }) } := by
  unfold processParagraph
  rw [hr]

theorem processParagraph_idem (content : Dict) (p : Paragraph) :
    processParagraph content (processParagraph content p) = processParagraph content p := by
  cases hr : p.runs with
  | nil =>
    have h1 : processParagraph content p = p := by
      unfold processParagraph
      rw [hr]
    rw [h1, h1]
  | cons r rs =>
    have h1 := processParagraph_eq content p r rs hr
    rw [h1]
    rw [processParagraph_eq content _
      ({ r with text := resolveText content (catChars ((r :: rs).map Run.text)) })
      (rs.map (fun q => { q with text := [] })) rfl]
    simp only [List.map_cons, catChars_cons]
    rw [catChars_clear, List.append_nil, resolveText_idem, map_clear_clear]

/-- C3 (amended): for every paragraph text the fallback-substitution pass of the text
resolver terminates (fuel `length + 2` suffices for `fallbackAux`), and a token
pattern whose text contains no close marker anywhere is left unreplaced.  (The
original claim — that an open marker with no close marker *after* it is left
unreplaced — fails when a close marker occurs before the open marker; see the
counterexample.) -/
theorem claim3_fallback_termination (s : Chars) :
    (fallbackAux (s.length + 2) s).isSome = true ∧
    (containsSub closeMark s = false → fallbackAux (s.length + 2) s = some s) := by
  constructor
  · rcases fallbackAux_total s.length s (Nat.le_refl _) with ⟨t, ht⟩
    rw [ht]
    rfl
  · intro h
    exact fallbackAux_of_guard_false (s.length + 1) (by rw [h, Bool.and_false])

/-- C3 witness: a text with an open marker but no close marker at all is returned
unchanged by the fallback pass. -/
theorem claim3_witness :
    containsSub closeMark ['{', '{', 'x'] = false ∧
    fallbackAux 5 ['{', '{', 'x'] = some ['{', '{', 'x'] :=
  ⟨by decide, (claim3_fallback_termination ['{', '{', 'x']).2 (by decide)⟩

/-- C3 counterexample: in `-close--close- -open-x` the open marker has no matching
close marker after it, yet the fallback pass does not leave it unreplaced: the sliced
tag is the empty string, `str.replace` interleaves `n/a` everywhere, and the open
marker is destroyed (the output contains no open marker at all). -/
theorem claim3_counterexample :
    fallbackPass ['}', '}', ' ', '{', '{', 'x'] ≠ ['}', '}', ' ', '{', '{', 'x'] ∧
    containsSub ['{', '{', 'x'] (fallbackPass ['}', '}', ' ', '{', '{', 'x']) = false := by
  decide

/-- C6: for every content map and every paragraph containing only resolvable tokens,
applying the text resolver twice yields the same paragraph as applying it once.  (The
proof does not even need the hypothesis: the resolver is idempotent on every
paragraph, because after the fallback pass at most one kind of marker remains.) -/
theorem claim6_resolver_idempotent (content : Dict) (p : Paragraph)
    (_h : onlyResolvableTokens content p = true) :
    processParagraph content (processParagraph content p) = processParagraph content p :=
  processParagraph_idem content p

/-- C6 witness: a one-run paragraph `-open-a-close-` with `a` bound to `7`. -/
theorem claim6_witness :
    onlyResolvableTokens [(['a'], .vint 7)]
      ⟨none, none, [mkRun (openMark ++ ['a'] ++ closeMark)]⟩ = true ∧
    processParagraph [(['a'], .vint 7)]
        (processParagraph [(['a'], .vint 7)] ⟨none, none, [mkRun (openMark ++ ['a'] ++ closeMark)]⟩) =
      processParagraph [(['a'], .vint 7)] ⟨none, none, [mkRun (openMark ++ ['a'] ++ closeMark)]⟩ :=
  ⟨by decide, claim6_resolver_idempotent _ _ (by decide)⟩

/-- C9: text resolution writes the fully resolved concatenation into the first run and
clears every downstream run (styles of all runs and the paragraph's own attributes are
untouched); a paragraph with zero runs is left completely unchanged. -/
theorem claim9_run_collapse (content : Dict) (p : Paragraph) :
    (p.runs = [] → processParagraph content p = p) ∧
    (∀ r rs, p.runs = r :: rs →
      (processParagraph content p).runs.map Run.text =
        resolveText content (catChars (p.runs.map Run.text)) :: List.replicate rs.length [] ∧
      (processParagraph content p).runs.map (fun q => (q.size, q.bold)) =
        p.runs.map (fun q => (q.size, q.bold)) ∧
      (processParagraph content p).defSize = p.defSize ∧
      (processParagraph content p).defBold = p.defBold) := by
  constructor
  · intro hr
    unfold processParagraph
    rw [hr]
  · intro r rs hr
    rw [processParagraph_eq content p r rs hr, hr]
    refine ⟨?_, ?_, rfl, rfl⟩
    · simp only [List.map_cons, map_text_clear]
    · simp only [List.map_cons, List.map_map]
      rfl

/-- C9 witness: the zero-run paragraph is untouched; a two-run paragraph collapses to
first-run text plus one cleared run. -/
theorem claim9_witness :
    processParagraph [] ⟨none, none, []⟩ = ⟨none, none, []⟩ ∧
    (processParagraph [] ⟨none, none, [mkRun ['h', 'i'], mkRun ['!']]⟩).runs.map Run.text =
      resolveText [] (catChars (([mkRun ['h', 'i'], mkRun ['!']] : List Run).map Run.text)) ::
        List.replicate 1 [] :=
  ⟨(claim9_run_collapse [] ⟨none, none, []⟩).1 rfl,
   ((claim9_run_collapse [] ⟨none, none, [mkRun ['h', 'i'], mkRun ['!']]⟩).2
      (mkRun ['h', 'i']) [mkRun ['!']] rfl).1⟩

/-- C7: the derived keys `jobid` and `jobdate` are present in every constructed content
map and their values override any same-named entries of the record's own embedded
content. -/
theorem claim7_injected_keys_override (parse : Chars → Option Dict)
    (jobid jobdate : Chars) (r : Record) (c : Dict)
    (h : buildContent parse jobid jobdate r = some c) :
    dictGet c JOBID_KEY = some (.vstr jobid) ∧ dictGet c JOBDATE_KEY = some (.vstr jobdate) := by
  have hinj : ∀ d : Dict,
      dictGet (injectDerived jobid jobdate d) JOBID_KEY = some (.vstr jobid) ∧
      dictGet (injectDerived jobid jobdate d) JOBDATE_KEY = some (.vstr jobdate) := by
    intro d
    constructor
    · rw [injectDerived, dictGet_dictSet_other _ _ _ _ (by decide), dictGet_dictSet_same]
    · rw [injectDerived, dictGet_dictSet_same]
  unfold buildContent at h
  split at h
  · cases h
    exact hinj []
  · split at h
    · exact Option.noConfusion h
    · rename_i d hd
      cases h
      exact hinj d

/-- C7 witness: a record whose embedded content supplies its own `jobid` and `jobdate`
values still ends up with the injected ones. -/
theorem claim7_witness :
    buildContent (fun _ => some [(JOBID_KEY, Value.vstr ['X']), (JOBDATE_KEY, Value.vstr ['Y'])])
      ['J'] ['D'] ⟨some ['x']⟩ =
      some [(JOBID_KEY, Value.vstr ['J']), (JOBDATE_KEY, Value.vstr ['D'])] ∧
    dictGet [(JOBID_KEY, Value.vstr ['J']), (JOBDATE_KEY, Value.vstr ['D'])] JOBID_KEY =
      some (Value.vstr ['J']) ∧
    dictGet [(JOBID_KEY, Value.vstr ['J']), (JOBDATE_KEY, Value.vstr ['D'])] JOBDATE_KEY =
      some (Value.vstr ['D']) :=
  ⟨by rfl, claim7_injected_keys_override
    (fun _ => some [(JOBID_KEY, Value.vstr ['X']), (JOBDATE_KEY, Value.vstr ['Y'])])
    ['J'] ['D'] ⟨some ['x']⟩ _ (by rfl)⟩

/-- C8: a record whose embedded JSON fails to deserialize is skipped entirely: its pass
leaves every slide unchanged, no exception propagates (the result is `some`), and the
batch result is the same as if the record were absent. -/
theorem claim8_bad_json_skipped (parse : Chars → Option Dict) (styleId jobid jobdate : Chars)
    (fuel : Nat) (rs1 rs2 : List Record) (r : Record) (raw : Chars)
    (slides : List (List Shape)) (hfield : r.jeschro_content = some raw)
    (hparse : parse raw = none) :
    processRecord parse styleId jobid jobdate fuel slides r = some slides ∧
    generate_ppt parse styleId jobid jobdate fuel (rs1 ++ r :: rs2) slides =
      generate_ppt parse styleId jobid jobdate fuel (rs1 ++ rs2) slides := by
  have hbc : buildContent parse jobid jobdate r = none := by
    unfold buildContent
    rw [hfield]
    show (match parse raw with
      | none => none
      | some d => some (injectDerived jobid jobdate d)) = none
    rw [hparse]
  have hskip : ∀ ss, processRecord parse styleId jobid jobdate fuel ss r = some ss := by
    intro ss
    unfold processRecord
    rw [hbc]
  refine ⟨hskip slides, ?_⟩
  unfold generate_ppt
  have hstep : ∀ acc : Option (List (List Shape)),
      acc.bind (fun ss => processRecord parse styleId jobid jobdate fuel ss r) = acc := by
    intro acc
    cases acc with
    | none => rfl
    | some ss => simpa using hskip ss
  simp only [List.foldl_append, List.foldl_cons]
  rw [hstep]

/-- C8 witness: a one-record batch with unparsable JSON leaves the (empty) document
unchanged and equals the empty batch. -/
theorem claim8_witness :
    processRecord (fun _ => none) [] [] [] 1 [] ⟨some ['x']⟩ = some [] ∧
    generate_ppt (fun _ => none) [] [] [] 1 [⟨some ['x']⟩] [] =
      generate_ppt (fun _ => none) [] [] [] 1 [] [] :=
  claim8_bad_json_skipped (fun _ => none) [] [] [] 1 [] [] ⟨some ['x']⟩ ['x'] [] rfl rfl

theorem updAt_length {α : Type} (f : α → α) : ∀ (n : Nat) (l : List α),
    (updAt f n l).length = l.length := by
  intro n l
  induction l generalizing n with
  | nil => simp [updAt]
  | cons x xs ih =>
    cases n with
    | zero => rfl
    | succ m => simpa [updAt] using ih m

theorem updAt_out {α : Type} (f : α → α) : ∀ (n : Nat) (l : List α),
    l.length ≤ n → updAt f n l = l := by
  intro n l
  induction l generalizing n with
  | nil => intro _; simp [updAt]
  | cons x xs ih =>
    intro h
    cases n with
    | zero => simp at h
    | succ m =>
      simp only [List.length_cons] at h
      simpa [updAt] using ih m (by omega)

theorem nthD_updAt_same {α : Type} (f : α → α) (d : α) : ∀ (n : Nat) (l : List α),
    n < l.length → nthD d (updAt f n l) n = f (nthD d l n) := by
  intro n l
  induction l generalizing n with
  | nil => intro h; simp at h
  | cons x xs ih =>
    intro h
    cases n with
    | zero => rfl
    | succ m =>
      simp only [List.length_cons] at h
      simpa [updAt, nthD] using ih m (by omega)

theorem nthD_updAt_other {α : Type} (f : α → α) (d : α) : ∀ (n m : Nat) (l : List α),
    m ≠ n → nthD d (updAt f n l) m = nthD d l m := by
  intro n m l
  induction l generalizing n m with
  | nil => intro _; simp [updAt]
  | cons x xs ih =>
    intro h
    cases n with
    | zero =>
      cases m with
      | zero => exact absurd rfl h
      | succ m' => rfl
    | succ n' =>
      cases m with
      | zero => rfl
      | succ m' => simpa [updAt, nthD] using ih n' m' (by omega)

theorem updAt_mem {α : Type} (f : α → α) : ∀ (n : Nat) (l : List α) (x : α),
    x ∈ updAt f n l → x ∈ l ∨ ∃ y, y ∈ l ∧ x = f y := by
  intro n l
  induction l generalizing n with
  | nil => intro x h; simp [updAt] at h
  | cons a as ih =>
    intro x h
    cases n with
    | zero =>
      rcases (List.mem_cons).1 h with h | h
      · exact Or.inr ⟨a, List.mem_cons_self _ _, h⟩
      · exact Or.inl (List.mem_cons_of_mem _ h)
    | succ m =>
      rcases (List.mem_cons).1 h with h | h
      · exact Or.inl (h ▸ List.mem_cons_self _ _)
      · rcases ih m x h with h | ⟨y, hy, hxy⟩
        · exact Or.inl (List.mem_cons_of_mem _ h)
        · exact Or.inr ⟨y, List.mem_cons_of_mem _ hy, hxy⟩

theorem nthD_map {α β : Type} (f : α → β) (d : α) : ∀ (l : List α) (n : Nat),
    nthD (f d) (l.map f) n = f (nthD d l n) := by
  intro l
  induction l with
  | nil => intro n; rfl
  | cons x xs ih =>
    intro n
    cases n with
    | zero => rfl
    | succ m => simpa [nthD] using ih m

theorem nthD_replicate {α : Type} (d a : α) : ∀ (k n : Nat),
    nthD d (List.replicate k a) n = if n < k then a else d := by
  intro k
  induction k with
  | zero => intro n; simp [nthD]
  | succ m ih =>
    intro n
    cases n with
    | zero => simp [List.replicate_succ, nthD]
    | succ n' =>
      simp only [List.replicate_succ, nthD, ih n']
      by_cases h : n' < m
      · rw [if_pos h, if_pos (by omega)]
      · rw [if_neg h, if_neg (by omega)]

theorem mem_flatJoin {α : Type} (x : α) : ∀ l : List (List α),
    x ∈ flatJoin l ↔ ∃ s, s ∈ l ∧ x ∈ s := by
  intro l
  induction l with
  | nil => simp [flatJoin]
  | cons a as ih =>
    show x ∈ a ++ flatJoin as ↔ _
    simp only [List.mem_append, ih, List.mem_cons]
    constructor
    · rintro (h | ⟨s, hs, hx⟩)
      · exact ⟨a, Or.inl rfl, h⟩
      · exact ⟨s, Or.inr hs, hx⟩
    · rintro ⟨s, (rfl | hs), hx⟩
      · exact Or.inl hx
      · exact Or.inr ⟨s, hs, hx⟩

theorem flatJoin_replicate_nil {α : Type} : ∀ n : Nat,
    flatJoin (List.replicate n ([] : List α)) = [] := by
  intro n
  induction n with
  | zero => rfl
  | succ m ih => simpa [List.replicate_succ, flatJoin] using ih

theorem setTableCellText_rows (t : Table) (r c : Nat) (s : Chars) :
    (setTableCellText t r c s).cells.length = t.cells.length := by
  simp [setTableCellText, updAt_length]

theorem setTableCellText_styleId (t : Table) (r c : Nat) (s : Chars) :
    (setTableCellText t r c s).styleId = t.styleId := rfl

theorem setTableCellText_rowLen (t : Table) (r c : Nat) (s : Chars) (k : Nat) :
    (nthD [] (setTableCellText t r c s).cells k).length = (nthD [] t.cells k).length := by
  simp only [setTableCellText]
  by_cases hk : k = r
  · subst hk
    by_cases hr : k < t.cells.length
    · rw [nthD_updAt_same _ _ _ _ hr, updAt_length]
    · rw [updAt_out _ _ _ (by omega)]
  · rw [nthD_updAt_other _ _ _ _ _ hk]

theorem getCell_setTableCellText_same (t : Table) (r c : Nat) (s : Chars)
    (hr : r < t.cells.length) (hc : c < (nthD [] t.cells r).length) :
    getCell (setTableCellText t r c s) r c = mkTextCell s := by
  simp only [getCell, setTableCellText]
  rw [nthD_updAt_same _ _ _ _ hr, nthD_updAt_same _ _ _ _ hc]
  rfl

theorem getCell_setTableCellText_other (t : Table) (r c r' c' : Nat) (s : Chars)
    (h : r' ≠ r ∨ c' ≠ c) :
    getCell (setTableCellText t r c s) r' c' = getCell t r' c' := by
  simp only [getCell, setTableCellText]
  rcases h with h | h
  · rw [nthD_updAt_other _ _ _ _ _ h]
  · by_cases hr' : r' = r
    · subst hr'
      by_cases hlt : r' < t.cells.length
      · rw [nthD_updAt_same _ _ _ _ hlt, nthD_updAt_other _ _ _ _ _ h]
      · rw [updAt_out _ _ _ (by omega)]
    · rw [nthD_updAt_other _ _ _ _ _ hr']

theorem getCell_cellsMap (g : Cell → Cell) (t : Table) (r c : Nat)
    (hg : g freshCell = freshCell) :
    nthD freshCell (nthD [] (t.cells.map (fun row => row.map g)) r) c =
      g (nthD freshCell (nthD [] t.cells r) c) := by
  have h1 := nthD_map (fun (row : List Cell) => row.map g) [] t.cells r
  simp only [List.map_nil] at h1
  rw [h1]
  have h2 := nthD_map g freshCell (nthD [] t.cells r) c
  rw [hg] at h2
  exact h2

theorem getCell_mapTableRuns (f : Run → Run) (t : Table) (r c : Nat) :
    getCell (mapTableRuns f t) r c = cellMapRuns f (getCell t r c) := by
  simp only [getCell, mapTableRuns]
  exact getCell_cellsMap _ t r c rfl

theorem mapTableRuns_rows (f : Run → Run) (t : Table) :
    (mapTableRuns f t).cells.length = t.cells.length := by
  simp [mapTableRuns]

theorem mapTableRuns_rowLen (f : Run → Run) (t : Table) (k : Nat) :
    (nthD [] (mapTableRuns f t).cells k).length = (nthD [] t.cells k).length := by
  simp only [mapTableRuns]
  have h1 := nthD_map (fun (row : List Cell) => row.map (fun cell =>
    (⟨cell.paragraphs.map (fun p => { p with runs := p.runs.map f })⟩ : Cell))) [] t.cells k
  simp only [List.map_nil] at h1
  rw [h1, List.length_map]

theorem mapTableRuns_styleId (f : Run → Run) (t : Table) :
    (mapTableRuns f t).styleId = t.styleId := rfl

theorem cellText_mkTextCell (s : Chars) : cellText (mkTextCell s) = s := by
  simp [cellText, mkTextCell, paragraphText, mkRun, catChars, interJoin]

theorem cellText_cellMapRuns (f : Run → Run) (htext : ∀ q, (f q).text = q.text) (c : Cell) :
    cellText (cellMapRuns f c) = cellText c := by
  unfold cellText cellMapRuns
  congr 1
  rw [List.map_map]
  apply List.map_congr_left
  intro p _
  simp only [Function.comp]
  unfold paragraphText
  rw [List.map_map]
  congr 1
  apply List.map_congr_left
  intro q _
  simp only [Function.comp]
  exact htext q

theorem flatJoin_map_map {α β : Type} (f : α → β) : ∀ l : List (List α),
    flatJoin (l.map (List.map f)) = (flatJoin l).map f := by
  intro l
  induction l with
  | nil => rfl
  | cons a as ih =>
    show (a.map f) ++ flatJoin (as.map (List.map f)) = (a ++ flatJoin as).map f
    rw [ih, List.map_append]

theorem runsOfCell_cellMapRuns (f : Run → Run) (c : Cell) :
    runsOfCell (cellMapRuns f c) = (runsOfCell c).map f := by
  unfold runsOfCell cellMapRuns
  rw [List.map_map, ← flatJoin_map_map f, List.map_map]
  rfl

theorem tableRuns_mapTableRuns (f : Run → Run) (t : Table) :
    tableRuns (mapTableRuns f t) = (tableRuns t).map f := by
  unfold tableRuns mapTableRuns
  rw [List.map_map, ← flatJoin_map_map f, List.map_map]
  congr 1
  apply List.map_congr_left
  intro row _
  simp only [Function.comp]
  rw [List.map_map, ← flatJoin_map_map f, List.map_map]
  congr 1
  apply List.map_congr_left
  intro cell _
  simp only [Function.comp]
  exact runsOfCell_cellMapRuns f cell

theorem mem_tableRuns_iff (q : Run) (t : Table) :
    q ∈ tableRuns t ↔ ∃ row, row ∈ t.cells ∧ ∃ cell, cell ∈ row ∧ q ∈ runsOfCell cell := by
  unfold tableRuns
  rw [mem_flatJoin]
  constructor
  · rintro ⟨s, hs, hq⟩
    rcases List.mem_map.1 hs with ⟨row, hrow, rfl⟩
    rcases (mem_flatJoin q _).1 hq with ⟨rl, hrl, hq2⟩
    rcases List.mem_map.1 hrl with ⟨cell, hcell, rfl⟩
    exact ⟨row, hrow, cell, hcell, hq2⟩
  · rintro ⟨row, hrow, cell, hcell, hq⟩
    refine ⟨flatJoin (row.map runsOfCell), List.mem_map.2 ⟨row, hrow, rfl⟩, ?_⟩
    exact (mem_flatJoin q _).2 ⟨runsOfCell cell, List.mem_map.2 ⟨cell, hcell, rfl⟩, hq⟩

theorem mem_tableRuns_setTableCellText {t : Table} {r c : Nat} {s : Chars} {q : Run}
    (h : q ∈ tableRuns (setTableCellText t r c s)) :
    q ∈ tableRuns t ∨ q = mkRun s := by
  rcases (mem_tableRuns_iff q _).1 h with ⟨row, hrow, cell, hcell, hq⟩
  simp only [setTableCellText] at hrow
  rcases updAt_mem _ _ _ _ hrow with hrow' | ⟨z, hz, rfl⟩
  · exact Or.inl ((mem_tableRuns_iff q t).2 ⟨row, hrow', cell, hcell, hq⟩)
  · rcases updAt_mem _ _ _ _ hcell with hcell' | ⟨w, _, rfl⟩
    · exact Or.inl ((mem_tableRuns_iff q t).2 ⟨z, hz, cell, hcell', hq⟩)
    · right
      have : runsOfCell (setCellText s w) = [mkRun s] := rfl
      rw [this] at hq
      simpa using hq

theorem create_table_rows (sid : Chars) (rows cols : Nat) (fs : Option Nat) (fb : Option Bool) :
    (create_table sid rows cols fs fb).cells.length = rows := by
  show (mapTableRuns _ _).cells.length = rows
  rw [mapTableRuns_rows]
  simp [freshTable]

theorem create_table_rowLen (sid : Chars) (rows cols : Nat) (fs : Option Nat)
    (fb : Option Bool) (k : Nat) (hk : k < rows) :
    (nthD [] (create_table sid rows cols fs fb).cells k).length = cols := by
  show (nthD [] (mapTableRuns _ _).cells k).length = cols
  rw [mapTableRuns_rowLen]
  show (nthD [] (List.replicate rows (List.replicate cols freshCell)) k).length = cols
  rw [nthD_replicate, if_pos hk, List.length_replicate]

theorem create_table_styleId (sid : Chars) (rows cols : Nat) (fs : Option Nat)
    (fb : Option Bool) : (create_table sid rows cols fs fb).styleId = sid := rfl

theorem tableRuns_create_table (sid : Chars) (rows cols : Nat) (fs : Option Nat)
    (fb : Option Bool) : tableRuns (create_table sid rows cols fs fb) = [] := by
  show tableRuns (mapTableRuns _ _) = []
  rw [tableRuns_mapTableRuns]
  have hbase : tableRuns { freshTable rows cols with styleId := sid } = [] := by
    show flatJoin ((List.replicate rows (List.replicate cols freshCell)).map
      (fun row => flatJoin (row.map runsOfCell))) = []
    rw [List.map_replicate]
    have hrow : flatJoin ((List.replicate cols freshCell).map runsOfCell) = [] := by
      rw [List.map_replicate]
      rw [show runsOfCell freshCell = [] from rfl]
      exact flatJoin_replicate_nil cols
    rw [hrow]
    exact flatJoin_replicate_nil rows
  rw [hbase]
  rfl

theorem insertHeaders_rows : ∀ (hs : List Chars) (t : Table) (i : Nat),
    (insertHeaders t i hs).cells.length = t.cells.length := by
  intro hs
  induction hs with
  | nil => intro t i; rfl
  | cons h hs' ih =>
    intro t i
    show (insertHeaders (setTableCellText t 0 i h) (i + 1) hs').cells.length = _
    rw [ih, setTableCellText_rows]

theorem insertHeaders_rowLen : ∀ (hs : List Chars) (t : Table) (i k : Nat),
    (nthD [] (insertHeaders t i hs).cells k).length = (nthD [] t.cells k).length := by
  intro hs
  induction hs with
  | nil => intro t i k; rfl
  | cons h hs' ih =>
    intro t i k
    show (nthD [] (insertHeaders (setTableCellText t 0 i h) (i + 1) hs').cells k).length = _
    rw [ih, setTableCellText_rowLen]

theorem insertHeaders_styleId : ∀ (hs : List Chars) (t : Table) (i : Nat),
    (insertHeaders t i hs).styleId = t.styleId := by
  intro hs
  induction hs with
  | nil => intro t i; rfl
  | cons h hs' ih =>
    intro t i
    show (insertHeaders (setTableCellText t 0 i h) (i + 1) hs').styleId = _
    rw [ih, setTableCellText_styleId]

theorem getCell_insertHeaders_below : ∀ (hs : List Chars) (t : Table) (i r c : Nat),
    1 ≤ r → getCell (insertHeaders t i hs) r c = getCell t r c := by
  intro hs
  induction hs with
  | nil => intro t i r c _; rfl
  | cons h hs' ih =>
    intro t i r c hr
    show getCell (insertHeaders (setTableCellText t 0 i h) (i + 1) hs') r c = _
    rw [ih _ _ _ _ hr, getCell_setTableCellText_other _ _ _ _ _ _ (Or.inl (by omega))]

theorem getCell_insertHeaders_left : ∀ (hs : List Chars) (t : Table) (i c : Nat),
    c < i → getCell (insertHeaders t i hs) 0 c = getCell t 0 c := by
  intro hs
  induction hs with
  | nil => intro t i c _; rfl
  | cons h hs' ih =>
    intro t i c hc
    show getCell (insertHeaders (setTableCellText t 0 i h) (i + 1) hs') 0 c = _
    rw [ih _ _ _ (by omega), getCell_setTableCellText_other _ _ _ _ _ _ (Or.inr (by omega))]

theorem getCell_insertHeaders_at : ∀ (hs : List Chars) (t : Table) (i j : Nat),
    j < hs.length → 0 < t.cells.length → i + hs.length ≤ (nthD [] t.cells 0).length →
    getCell (insertHeaders t i hs) 0 (i + j) = mkTextCell (nthD [] hs j) := by
  intro hs
  induction hs with
  | nil => intro t i j hj _ _; simp at hj
  | cons h hs' ih =>
    intro t i j hj hrows hcols
    show getCell (insertHeaders (setTableCellText t 0 i h) (i + 1) hs') 0 (i + j) = _
    cases j with
    | zero =>
      show getCell (insertHeaders (setTableCellText t 0 i h) (i + 1) hs') 0 i = mkTextCell h
      rw [getCell_insertHeaders_left hs' (setTableCellText t 0 i h) (i + 1) i (by omega)]
      rw [getCell_setTableCellText_same t 0 i h hrows
        (by simp only [List.length_cons] at hcols; omega)]
    | succ j' =>
      have := ih (setTableCellText t 0 i h) (i + 1) j' (by simp at hj; omega)
        (by rw [setTableCellText_rows]; exact hrows)
        (by rw [setTableCellText_rowLen]; simp at hcols; omega)
      rw [show i + (j' + 1) = (i + 1) + j' by omega, this]
      rfl

theorem writeRowCells_rows : ∀ (hs : List Chars) (t : Table) (r c : Nat) (d : Dict),
    (writeRowCells t r c d hs).cells.length = t.cells.length := by
  intro hs
  induction hs with
  | nil => intro t r c d; rfl
  | cons h hs' ih =>
    intro t r c d
    show (writeRowCells (setTableCellText t r c _) r (c + 1) d hs').cells.length = _
    rw [ih, setTableCellText_rows]

theorem writeRowCells_rowLen : ∀ (hs : List Chars) (t : Table) (r c : Nat) (d : Dict) (k : Nat),
    (nthD [] (writeRowCells t r c d hs).cells k).length = (nthD [] t.cells k).length := by
  intro hs
  induction hs with
  | nil => intro t r c d k; rfl
  | cons h hs' ih =>
    intro t r c d k
    show (nthD [] (writeRowCells (setTableCellText t r c _) r (c + 1) d hs').cells k).length = _
    rw [ih, setTableCellText_rowLen]

theorem writeRowCells_styleId : ∀ (hs : List Chars) (t : Table) (r c : Nat) (d : Dict),
    (writeRowCells t r c d hs).styleId = t.styleId := by
  intro hs
  induction hs with
  | nil => intro t r c d; rfl
  | cons h hs' ih =>
    intro t r c d
    show (writeRowCells (setTableCellText t r c _) r (c + 1) d hs').styleId = _
    rw [ih, setTableCellText_styleId]

theorem getCell_writeRowCells_otherRow : ∀ (hs : List Chars) (t : Table) (r c : Nat)
    (d : Dict) (r' c' : Nat), r' ≠ r →
    getCell (writeRowCells t r c d hs) r' c' = getCell t r' c' := by
  intro hs
  induction hs with
  | nil => intro t r c d r' c' _; rfl
  | cons h hs' ih =>
    intro t r c d r' c' hr
    show getCell (writeRowCells (setTableCellText t r c _) r (c + 1) d hs') r' c' = _
    rw [ih _ _ _ _ _ _ hr, getCell_setTableCellText_other _ _ _ _ _ _ (Or.inl hr)]

theorem getCell_writeRowCells_left : ∀ (hs : List Chars) (t : Table) (r c : Nat)
    (d : Dict) (c' : Nat), c' < c →
    getCell (writeRowCells t r c d hs) r c' = getCell t r c' := by
  intro hs
  induction hs with
  | nil => intro t r c d c' _; rfl
  | cons h hs' ih =>
    intro t r c d c' hc
    show getCell (writeRowCells (setTableCellText t r c _) r (c + 1) d hs') r c' = _
    rw [ih _ _ _ _ _ (by omega), getCell_setTableCellText_other _ _ _ _ _ _ (Or.inr (by omega))]

theorem getCell_writeRowCells_at : ∀ (hs : List Chars) (t : Table) (r c : Nat)
    (d : Dict) (j : Nat), j < hs.length → r < t.cells.length →
    c + hs.length ≤ (nthD [] t.cells r).length →
    getCell (writeRowCells t r c d hs) r (c + j) =
      mkTextCell (pyStr ((dictGet d (nthD [] hs j)).getD (.vstr []))) := by
  intro hs
  induction hs with
  | nil => intro t r c d j hj _ _; simp at hj
  | cons h hs' ih =>
    intro t r c d j hj hrows hcols
    show getCell (writeRowCells (setTableCellText t r c _) r (c + 1) d hs') r (c + j) = _
    cases j with
    | zero =>
      show getCell (writeRowCells (setTableCellText t r c _) r (c + 1) d hs') r c =
        mkTextCell (pyStr ((dictGet d h).getD (.vstr [])))
      rw [getCell_writeRowCells_left hs' _ r (c + 1) d c (by omega)]
      rw [getCell_setTableCellText_same t r c _ hrows
        (by simp only [List.length_cons] at hcols; omega)]
    | succ j' =>
      have := ih (setTableCellText t r c (pyStr ((dictGet d h).getD (.vstr [])))) r (c + 1) d j'
        (by simp only [List.length_cons] at hj; omega)
        (by rw [setTableCellText_rows]; exact hrows)
        (by rw [setTableCellText_rowLen]; simp only [List.length_cons] at hcols; omega)
      rw [show c + (j' + 1) = (c + 1) + j' by omega, this]
      rfl

theorem writeRows_rows : ∀ (l : List Value) (t : Table) (r : Nat) (hs : List Chars),
    (writeRows t r l hs).cells.length = t.cells.length := by
  intro l
  induction l with
  | nil => intro t r hs; rfl
  | cons item rest ih =>
    intro t r hs
    show (writeRows (writeRowCells t r 0 (asDict item) hs) (r + 1) rest hs).cells.length = _
    rw [ih, writeRowCells_rows]

theorem writeRows_rowLen : ∀ (l : List Value) (t : Table) (r : Nat) (hs : List Chars) (k : Nat),
    (nthD [] (writeRows t r l hs).cells k).length = (nthD [] t.cells k).length := by
  intro l
  induction l with
  | nil => intro t r hs k; rfl
  | cons item rest ih =>
    intro t r hs k
    show (nthD [] (writeRows (writeRowCells t r 0 (asDict item) hs) (r + 1) rest hs).cells k).length = _
    rw [ih, writeRowCells_rowLen]

theorem writeRows_styleId : ∀ (l : List Value) (t : Table) (r : Nat) (hs : List Chars),
    (writeRows t r l hs).styleId = t.styleId := by
  intro l
  induction l with
  | nil => intro t r hs; rfl
  | cons item rest ih =>
    intro t r hs
    show (writeRows (writeRowCells t r 0 (asDict item) hs) (r + 1) rest hs).styleId = _
    rw [ih, writeRowCells_styleId]

theorem getCell_writeRows_above : ∀ (l : List Value) (t : Table) (r : Nat) (hs : List Chars)
    (r' c' : Nat), r' < r → getCell (writeRows t r l hs) r' c' = getCell t r' c' := by
  intro l
  induction l with
  | nil => intro t r hs r' c' _; rfl
  | cons item rest ih =>
    intro t r hs r' c' hr
    show getCell (writeRows (writeRowCells t r 0 (asDict item) hs) (r + 1) rest hs) r' c' = _
    rw [ih _ _ _ _ _ (by omega), getCell_writeRowCells_otherRow _ _ _ _ _ _ _ (by omega)]

theorem getCell_writeRows_at : ∀ (l : List Value) (t : Table) (r : Nat) (hs : List Chars)
    (i j : Nat), i < l.length → j < hs.length → r + l.length ≤ t.cells.length →
    (∀ k, k < t.cells.length → hs.length ≤ (nthD [] t.cells k).length) →
    getCell (writeRows t r l hs) (r + i) j =
      mkTextCell (pyStr ((dictGet (asDict (nthD Value.vnull l i)) (nthD [] hs j)).getD (.vstr []))) := by
  intro l
  induction l with
  | nil => intro t r hs i j hi _ _ _; simp at hi
  | cons item rest ih =>
    intro t r hs i j hi hj hrows hcols
    show getCell (writeRows (writeRowCells t r 0 (asDict item) hs) (r + 1) rest hs) (r + i) j = _
    cases i with
    | zero =>
      show getCell (writeRows (writeRowCells t r 0 (asDict item) hs) (r + 1) rest hs) r j =
        mkTextCell (pyStr ((dictGet (asDict item) (nthD [] hs j)).getD (.vstr [])))
      rw [getCell_writeRows_above rest _ (r + 1) hs r j (by omega)]
      have hat := getCell_writeRowCells_at hs t r 0 (asDict item) j hj
        (by simp only [List.length_cons] at hrows; omega)
        (by
          have := hcols r (by simp only [List.length_cons] at hrows; omega)
          omega)
      rw [show (0 : Nat) + j = j from by omega] at hat
      exact hat
    | succ i' =>
      have := ih (writeRowCells t r 0 (asDict item) hs) (r + 1) hs i' j
        (by simp only [List.length_cons] at hi; omega) hj
        (by rw [writeRowCells_rows]; simp only [List.length_cons] at hrows; omega)
        (by
          intro k hk
          rw [writeRowCells_rowLen]
          rw [writeRowCells_rows] at hk
          exact hcols k hk)
      rw [show r + (i' + 1) = (r + 1) + i' by omega, this]
      rfl

theorem insertRowCells_eq_write : ∀ (hs : List Chars) (t : Table) (r c : Nat) (d : Dict),
    insertRowCells t r c (.vdict d) hs = some (writeRowCells t r c d hs) := by
  intro hs
  induction hs with
  | nil => intro t r c d; rfl
  | cons h hs' ih =>
    intro t r c d
    show insertRowCells t r c (.vdict d) (h :: hs') = _
    unfold insertRowCells
    show (match pyGetAttrGet (.vdict d) h (.vstr []) with
      | none => none
      | some v => insertRowCells (setTableCellText t r c (pyStr v)) r (c + 1) (.vdict d) hs') = _
    rw [show pyGetAttrGet (.vdict d) h (.vstr []) = some ((dictGet d h).getD (.vstr [])) from rfl]
    exact ih _ _ _ _

theorem insertRows_eq_write : ∀ (l : List Value) (t : Table) (r : Nat) (hs : List Chars),
    (∀ v ∈ l, ∃ dd, v = .vdict dd) →
    insertRows t r l hs = some (writeRows t r l hs) := by
  intro l
  induction l with
  | nil => intro t r hs _; rfl
  | cons item rest ih =>
    intro t r hs hall
    rcases hall item (List.mem_cons_self _ _) with ⟨dd, rfl⟩
    show insertRows t r (.vdict dd :: rest) hs = _
    unfold insertRows
    rw [insertRowCells_eq_write]
    show insertRows (writeRowCells t r 0 dd hs) (r + 1) rest hs = _
    have hrest : ∀ v ∈ rest, ∃ dd2, v = .vdict dd2 := fun v hv =>
      hall v (List.mem_cons_of_mem _ hv)
    rw [ih _ _ _ hrest]
    rfl

theorem boldNone_setTableCellText {t : Table} (r c : Nat) (s : Chars)
    (h : ∀ q ∈ tableRuns t, q.bold = none) :
    ∀ q ∈ tableRuns (setTableCellText t r c s), q.bold = none := by
  intro q hq
  rcases mem_tableRuns_setTableCellText hq with hq' | rfl
  · exact h q hq'
  · rfl

theorem boldNone_writeRowCells : ∀ (hs : List Chars) (t : Table) (r c : Nat) (d : Dict),
    (∀ q ∈ tableRuns t, q.bold = none) →
    ∀ q ∈ tableRuns (writeRowCells t r c d hs), q.bold = none := by
  intro hs
  induction hs with
  | nil => intro t r c d h; exact h
  | cons h0 hs' ih =>
    intro t r c d h
    exact ih _ _ _ _ (boldNone_setTableCellText r c _ h)

theorem boldNone_writeRows : ∀ (l : List Value) (t : Table) (r : Nat) (hs : List Chars),
    (∀ q ∈ tableRuns t, q.bold = none) →
    ∀ q ∈ tableRuns (writeRows t r l hs), q.bold = none := by
  intro l
  induction l with
  | nil => intro t r hs h; exact h
  | cons item rest ih =>
    intro t r hs h
    exact ih _ _ _ (boldNone_writeRowCells hs t r 0 (asDict item) h)

theorem boldNone_insertHeaders : ∀ (hs : List Chars) (t : Table) (i : Nat),
    (∀ q ∈ tableRuns t, q.bold = none) →
    ∀ q ∈ tableRuns (insertHeaders t i hs), q.bold = none := by
  intro hs
  induction hs with
  | nil => intro t i h; exact h
  | cons h0 hs' ih =>
    intro t i h
    exact ih _ _ (boldNone_setTableCellText 0 i h0 h)

theorem mem_tableRuns_set_font {t2 : Table} {n : Nat} {q : Run}
    (h : q ∈ tableRuns (set_table_font_size t2 n)) :
    ∃ q', q' ∈ tableRuns t2 ∧ q = { q' with size := some (ptEmu n) } := by
  unfold set_table_font_size at h
  rw [tableRuns_mapTableRuns] at h
  rcases List.mem_map.1 h with ⟨q', hq', rfl⟩
  exact ⟨q', hq', rfl⟩

/-- Reduction of `process_table_placeholder` on the no-data path (lines 124-129). -/
theorem process_table_placeholder_nodata (styleId : Chars) (content : Dict) (t : Table)
    (h : isNonemptyArr ((dictGet content (anchorName t)).getD (.varr [])) = false) :
    process_table_placeholder styleId content t =
      some (.keep (set_table_font_size (setTableCellText t 0 0 NO_DATA) 11)) := by
  simp only [process_table_placeholder]
  cases hv : (dictGet content (anchorName t)).getD (.varr []) with
  | vstr s => rfl
  | vint n => rfl
  | vbool b => rfl
  | vnull => rfl
  | vdict d => rfl
  | varr l =>
    cases l with
    | nil => rfl
    | cons first rest =>
      rw [hv] at h
      simp [isNonemptyArr] at h

/-- Reduction of `process_table_placeholder` on the success path (lines 132-167). -/
theorem process_table_placeholder_success (styleId : Chars) (content : Dict) (t : Table)
    (d0 : Dict) (rest : List Value)
    (hlookup : dictGet content (anchorName t) = some (.varr (Value.vdict d0 :: rest)))
    (hall : ∀ v ∈ rest, ∃ dd, v = Value.vdict dd) :
    process_table_placeholder styleId content t =
      some (.replaceBy (set_table_font_size
        (writeRows
          (insertHeaders
            (create_table styleId ((Value.vdict d0 :: rest).length + 1) (d0.map Prod.fst).length
              (nthD freshParagraph (getCell t 0 0).paragraphs 0).defSize
              (nthD freshParagraph (getCell t 0 0).paragraphs 0).defBold)
            0 (d0.map Prod.fst))
          1 (Value.vdict d0 :: rest) (d0.map Prod.fst))
        11)) := by
  have hall' : ∀ v ∈ (Value.vdict d0 :: rest), ∃ dd, v = Value.vdict dd := by
    intro v hv
    rcases (List.mem_cons).1 hv with rfl | hv'
    · exact ⟨d0, rfl⟩
    · exact hall v hv'
  simp only [process_table_placeholder]
  rw [hlookup]
  simp only [Option.getD_some]
  rw [insertRows_eq_write _ _ _ _ hall']

/-- C5 (amended): for a table placeholder bound to a non-empty array of flat records,
the replacement table has `len + 1` rows and `len(first element's keys)` columns, row 0
holds the headers in first-element key order, data rows preserve array order, each data
cell is the stringification of the element's value at that header key, and a missing
key renders as the empty string.  (The original claim, which required only the *first*
element to be a record, fails: a later non-record element raises `AttributeError`; see
the counterexample.) -/
theorem claim5_table_from_schema (styleId : Chars) (content : Dict) (t : Table)
    (d0 : Dict) (rest : List Value)
    (hlookup : dictGet content (anchorName t) = some (.varr (Value.vdict d0 :: rest)))
    (hall : ∀ v ∈ rest, ∃ dd, v = Value.vdict dd) :
    ∃ T, process_table_placeholder styleId content t = some (.replaceBy T) ∧
      T.cells.length = (Value.vdict d0 :: rest).length + 1 ∧
      (∀ k, k < T.cells.length → (nthD [] T.cells k).length = (d0.map Prod.fst).length) ∧
      (∀ j, j < d0.length → cellText (getCell T 0 j) = nthD [] (d0.map Prod.fst) j) ∧
      (∀ i j, i < (Value.vdict d0 :: rest).length → j < d0.length →
        cellText (getCell T (1 + i) j) =
          pyStr ((dictGet (asDict (nthD Value.vnull (Value.vdict d0 :: rest) i))
            (nthD [] (d0.map Prod.fst) j)).getD (.vstr []))) := by
  refine ⟨_, process_table_placeholder_success styleId content t d0 rest hlookup hall,
    ?_, ?_, ?_, ?_⟩
  · show (set_table_font_size _ 11).cells.length = _
    unfold set_table_font_size
    rw [mapTableRuns_rows, writeRows_rows, insertHeaders_rows, create_table_rows]
  · intro k hk
    show (nthD [] (set_table_font_size _ 11).cells k).length = _
    unfold set_table_font_size
    rw [mapTableRuns_rowLen, writeRows_rowLen, insertHeaders_rowLen]
    apply create_table_rowLen
    unfold set_table_font_size at hk
    rw [mapTableRuns_rows, writeRows_rows, insertHeaders_rows, create_table_rows] at hk
    exact hk
  · intro j hj
    have hjhs : j < (d0.map Prod.fst).length := by rw [List.length_map]; exact hj
    show cellText (getCell (set_table_font_size _ 11) 0 j) = _
    unfold set_table_font_size
    rw [getCell_mapTableRuns, cellText_cellMapRuns (fun r => { r with size := some (ptEmu 11) }) (fun q => rfl)]
    rw [getCell_writeRows_above _ _ 1 _ 0 j (by omega)]
    have h0j := getCell_insertHeaders_at (d0.map Prod.fst)
      (create_table styleId ((Value.vdict d0 :: rest).length + 1) (d0.map Prod.fst).length
        (nthD freshParagraph (getCell t 0 0).paragraphs 0).defSize
        (nthD freshParagraph (getCell t 0 0).paragraphs 0).defBold)
      0 j hjhs
      (by rw [create_table_rows]; omega)
      (by rw [create_table_rowLen _ _ _ _ _ 0 (by omega)]; omega)
    rw [Nat.zero_add] at h0j
    rw [h0j, cellText_mkTextCell]
  · intro i j hi hj
    have hjhs : j < (d0.map Prod.fst).length := by rw [List.length_map]; exact hj
    show cellText (getCell (set_table_font_size _ 11) (1 + i) j) = _
    unfold set_table_font_size
    rw [getCell_mapTableRuns, cellText_cellMapRuns (fun r => { r with size := some (ptEmu 11) }) (fun q => rfl)]
    have hat := getCell_writeRows_at (Value.vdict d0 :: rest)
      (insertHeaders
        (create_table styleId ((Value.vdict d0 :: rest).length + 1) (d0.map Prod.fst).length
          (nthD freshParagraph (getCell t 0 0).paragraphs 0).defSize
          (nthD freshParagraph (getCell t 0 0).paragraphs 0).defBold)
        0 (d0.map Prod.fst))
      1 (d0.map Prod.fst) i j hi hjhs
      (by rw [insertHeaders_rows, create_table_rows]; omega)
      (by
        intro k hk
        rw [insertHeaders_rows, create_table_rows] at hk
        rw [insertHeaders_rowLen, create_table_rowLen _ _ _ _ _ k hk])
    rw [hat, cellText_mkTextCell]

/-- C5 counterexample: `items` bound to `[{"a": 1}, 2]` — a non-empty array whose first
element is a flat record — does not produce a replacement table at all: the data loop
evaluates `(2).get(header, "")`, which raises `AttributeError` (modelled by `none`),
instead of rendering anything as an empty string. -/
theorem claim5_counterexample :
    dictGet contentMixed (anchorName tPlace) =
      some (.varr [Value.vdict [(['a'], Value.vint 1)], Value.vint 2]) ∧
    process_table_placeholder [] contentMixed tPlace = none :=
  ⟨rfl, rfl⟩

/-- C5 witness: the specification's own example `[{"a":1,"b":2},{"a":3,"b":4}]` yields
a replacement table with 3 rows and 2 columns. -/
theorem claim5_witness :
    ∃ T, process_table_placeholder [] contentAB tPlace = some (.replaceBy T) ∧
      T.cells.length = 3 := by
  rcases claim5_table_from_schema [] contentAB tPlace
      [(['a'], Value.vint 1), (['b'], Value.vint 2)]
      [Value.vdict [(['a'], Value.vint 3), (['b'], Value.vint 4)]]
      (by rfl)
      (by
        intro v hv
        rw [List.mem_singleton] at hv
        exact ⟨_, hv⟩)
    with ⟨T, h1, h2, _⟩
  exact ⟨T, h1, h2⟩

/-- C1 (amended): after a successful materialization every run of every cell of the
replacement table carries the fixed font size `Pt(11)` and no bold flag.  The captured
font size and bold flag are passed to `create_table`, but a freshly added table has no
runs, so that application touches nothing; the fixed 11-point size is then applied
after all header and data cells are written, and the captured values never reach any
cell text. -/
theorem claim1_uniform_fixed_font (styleId : Chars) (content : Dict) (t : Table)
    (d0 : Dict) (rest : List Value)
    (hlookup : dictGet content (anchorName t) = some (.varr (Value.vdict d0 :: rest)))
    (hall : ∀ v ∈ rest, ∃ dd, v = Value.vdict dd) :
    ∃ T, process_table_placeholder styleId content t = some (.replaceBy T) ∧
      ∀ q ∈ tableRuns T, q.size = some (ptEmu 11) ∧ q.bold = none := by
  refine ⟨_, process_table_placeholder_success styleId content t d0 rest hlookup hall, ?_⟩
  intro q hq
  rcases mem_tableRuns_set_font hq with ⟨q', hq', rfl⟩
  refine ⟨rfl, ?_⟩
  show q'.bold = none
  have hbase : ∀ z ∈ tableRuns (create_table styleId ((Value.vdict d0 :: rest).length + 1)
      (d0.map Prod.fst).length
      (nthD freshParagraph (getCell t 0 0).paragraphs 0).defSize
      (nthD freshParagraph (getCell t 0 0).paragraphs 0).defBold), z.bold = none := by
    intro z hz
    rw [tableRuns_create_table] at hz
    simp at hz
  exact boldNone_writeRows _ _ _ _ (boldNone_insertHeaders _ _ _ hbase) q' hq'

/-- C1 counterexample: the placeholder's anchor paragraph carries size 254000 EMU
(`Pt(20)`) and bold, yet every run of the materialized table ends at 139700 EMU
(`Pt(11)`) with no bold flag — the captured formatting is not what is applied to the
cells' text. -/
theorem claim1_counterexample :
    process_table_placeholder [] contentOne tPlace =
      some (.replaceBy ⟨[[⟨[⟨none, none, [⟨['a'], some 139700, none⟩]⟩]⟩],
        [⟨[⟨none, none, [⟨['1'], some 139700, none⟩]⟩]⟩]], []⟩) ∧
    (nthD freshParagraph (getCell tPlace 0 0).paragraphs 0).defSize = some 254000 ∧
    (nthD freshParagraph (getCell tPlace 0 0).paragraphs 0).defBold = some true ∧
    (254000 : Nat) ≠ 139700 := by
  decide

/-- C1 witness: on `contentOne` the materialized table exists and all its runs are at
`Pt(11)` with bold unset. -/
theorem claim1_witness :
    ∃ T, process_table_placeholder [] contentOne tPlace = some (.replaceBy T) ∧
      ∀ q ∈ tableRuns T, q.size = some (ptEmu 11) ∧ q.bold = none := by
  rcases claim1_uniform_fixed_font [] contentOne tPlace [(['a'], Value.vint 1)] []
      (by rfl) (by intro v hv; simp at hv) with ⟨T, h1, h2⟩
  exact ⟨T, h1, h2⟩

/-- C4 (amended): when the looked-up value is absent, not a list, or an empty list, the
placeholder table is kept, no new table is created, its anchor cell text becomes the
`n/a` literal, every other cell keeps its text, and the fixed 11-point font size is
applied to every run of *every* cell of the table (not only the anchor — this is the
one departure from the original claim). -/
theorem claim4_nodata_degrade (styleId : Chars) (content : Dict) (t : Table)
    (hinvalid : isNonemptyArr ((dictGet content (anchorName t)).getD (.varr [])) = false)
    (hrows : 0 < t.cells.length) (hcols : 0 < (nthD [] t.cells 0).length) :
    ∃ T, process_table_placeholder styleId content t = some (.keep T) ∧
      cellText (getCell T 0 0) = NO_DATA ∧
      (∀ r c, ¬(r = 0 ∧ c = 0) → cellText (getCell T r c) = cellText (getCell t r c)) ∧
      (∀ q ∈ tableRuns T, q.size = some (ptEmu 11)) ∧
      T.cells.length = t.cells.length ∧
      (∀ k, (nthD [] T.cells k).length = (nthD [] t.cells k).length) := by
  refine ⟨_, process_table_placeholder_nodata styleId content t hinvalid, ?_, ?_, ?_, ?_, ?_⟩
  · show cellText (getCell (set_table_font_size (setTableCellText t 0 0 NO_DATA) 11) 0 0) = _
    unfold set_table_font_size
    rw [getCell_mapTableRuns, cellText_cellMapRuns (fun r => { r with size := some (ptEmu 11) }) (fun q => rfl)]
    rw [getCell_setTableCellText_same t 0 0 NO_DATA hrows hcols, cellText_mkTextCell]
  · intro r c hrc
    show cellText (getCell (set_table_font_size (setTableCellText t 0 0 NO_DATA) 11) r c) = _
    unfold set_table_font_size
    rw [getCell_mapTableRuns, cellText_cellMapRuns (fun r => { r with size := some (ptEmu 11) }) (fun q => rfl)]
    rw [getCell_setTableCellText_other t 0 0 r c NO_DATA (by omega)]
  · intro q hq
    rcases mem_tableRuns_set_font hq with ⟨q', _, rfl⟩
    rfl
  · show (set_table_font_size (setTableCellText t 0 0 NO_DATA) 11).cells.length = _
    unfold set_table_font_size
    rw [mapTableRuns_rows, setTableCellText_rows]
  · intro k
    show (nthD [] (set_table_font_size (setTableCellText t 0 0 NO_DATA) 11).cells k).length = _
    unfold set_table_font_size
    rw [mapTableRuns_rowLen, setTableCellText_rowLen]

/-- C4 counterexample: on a 1-by-2 template table with a styled second cell, the
no-data path changes the *second* cell too (its run drops from 254000 EMU to
139700 EMU), so the table is not "left unchanged except the anchor cell". -/
theorem claim4_counterexample :
    process_table_placeholder [] [] tTwoCells =
      some (.keep ⟨[[⟨[⟨none, none, [⟨NO_DATA, some 139700, none⟩]⟩]⟩,
        ⟨[⟨none, none, [⟨['z'], some 139700, none⟩]⟩]⟩]], []⟩) ∧
    getCell (⟨[[⟨[⟨none, none, [⟨NO_DATA, some 139700, none⟩]⟩]⟩,
        ⟨[⟨none, none, [⟨['z'], some 139700, none⟩]⟩]⟩]], []⟩ : Table) 0 1 ≠
      getCell tTwoCells 0 1 := by
  decide

/-- C4 witness: an ordinary 1-by-1 table with an unbound sliced name is kept with its
anchor degraded to the `n/a` literal. -/
theorem claim4_witness :
    ∃ T, process_table_placeholder [] [] tOneCell = some (.keep T) ∧
      cellText (getCell T 0 0) = NO_DATA := by
  rcases claim4_nodata_degrade [] [] tOneCell (by decide) (by decide) (by decide)
    with ⟨T, h1, h2, _⟩
  exact ⟨T, h1, h2⟩

theorem livePass_map (body : Shape → Option StepResult) (g : Shape → Shape) :
    ∀ (todo done : List Shape) (fuel : Nat), todo.length ≤ fuel + 1 →
    (∀ s ∈ todo, body s = some (.keep (g s))) →
    livePass body fuel done todo = some (done ++ todo.map g) := by
  intro todo
  induction todo with
  | nil => intro done fuel _ _; simp [livePass]
  | cons c rest ih =>
    intro done fuel hf hbody
    cases rest with
    | nil =>
      show livePass body fuel done [c] = _
      have hc := hbody c (List.mem_cons_self _ _)
      cases fuel with
      | zero => simp [livePass, hc]
      | succ f => simp [livePass, hc]
    | cons c2 rest2 =>
      cases fuel with
      | zero => simp at hf
      | succ f =>
        show livePass body (f + 1) done (c :: c2 :: rest2) = _
        have hc := hbody c (List.mem_cons_self _ _)
        rw [livePass, hc]
        show livePass body f (done ++ [g c]) (c2 :: rest2) = _
        have := ih (done ++ [g c]) f
          (by simp only [List.length_cons] at hf ⊢; omega)
          (fun s hs => hbody s (List.mem_cons_of_mem _ hs))
        rw [this]
        simp

/-- C2 (amended): the table pass iterates the *live* lxml shape collection, not a
snapshot.  When no shape is replaced (every table hits the no-data or invalid path)
live iteration coincides with the snapshot iteration described by the specification;
when a placeholder is materialized, the replacement table appended during the pass is
itself visited and re-processed as a placeholder, so the two iteration disciplines
produce different documents (see the counterexample). -/
theorem claim2_live_vs_snapshot (styleId : Chars) (content : Dict) (shapes : List Shape)
    (fuel : Nat) (hfuel : shapes.length ≤ fuel + 1)
    (hkeep : ∀ s ∈ shapes, ∃ s', processShapeStep styleId content s = some (.keep s')) :
    livePass (processShapeStep styleId content) fuel [] shapes =
      snapshotPass (processShapeStep styleId content) shapes := by
  set g : Shape → Shape := fun s =>
    match processShapeStep styleId content s with
    | some (.keep x) => x
    | _ => s with hg
  have hbody : ∀ s ∈ shapes, processShapeStep styleId content s = some (.keep (g s)) := by
    intro s hs
    rcases hkeep s hs with ⟨s', heq⟩
    rw [hg]
    simp only [heq]
  rw [livePass_map _ g shapes [] fuel hfuel hbody]
  have hmapM : ∀ l : List Shape, (∀ s ∈ l, processShapeStep styleId content s = some (.keep (g s))) →
      l.mapM (processShapeStep styleId content) = some (l.map (fun s => StepResult.keep (g s))) := by
    intro l
    induction l with
    | nil => intro _; rfl
    | cons a as ih =>
      intro hl
      rw [List.mapM_cons, hl a (List.mem_cons_self _ _), ih (fun s hs => hl s (List.mem_cons_of_mem _ hs))]
      rfl
  unfold snapshotPass
  rw [hmapM shapes hbody]
  have hfm1 : ∀ l : List Shape, (l.map (fun s => StepResult.keep (g s))).filterMap
      (fun r => match r with | StepResult.keep s => some s | StepResult.swap _ => none) = l.map g := by
    intro l
    induction l with
    | nil => rfl
    | cons a as ih => simp only [List.map_cons, List.filterMap_cons, ih]
  have hfm2 : ∀ l : List Shape, (l.map (fun s => StepResult.keep (g s))).filterMap
      (fun r => match r with | StepResult.keep _ => none | StepResult.swap s => some s) = [] := by
    intro l
    induction l with
    | nil => rfl
    | cons a as ih => simp only [List.map_cons, List.filterMap_cons, ih]
  simp only [Option.map_some', hfm1, hfm2, List.append_nil, List.nil_append]

/-- C2 witness: a slide whose only table takes the no-data path gives the same result
under live and snapshot iteration. -/
theorem claim2_witness :
    livePass (processShapeStep [] []) 1 [] [Shape.tableS geom0 tOneCell] =
      snapshotPass (processShapeStep [] []) [Shape.tableS geom0 tOneCell] := by
  apply claim2_live_vs_snapshot [] [] [Shape.tableS geom0 tOneCell] 1 (by decide)
  intro s hs
  rw [List.mem_singleton] at hs
  subst hs
  exact ⟨Shape.tableS geom0 (set_table_font_size (setTableCellText tOneCell 0 0 NO_DATA) 11),
    by rfl⟩

/-- C2 counterexample: a slide holding a valid placeholder followed by an ordinary
table.  Under the live iteration the materialized replacement table (appended at the
end of the shape tree) is itself visited and its header cell is clobbered with `n/a`;
under the specification's snapshot iteration it survives intact.  The code therefore
does not iterate over a snapshot taken before mutation. -/
theorem claim2_counterexample :
    livePass (processShapeStep [] contentOne) 3 []
        [Shape.tableS geom0 tPlace, Shape.tableS geom0 tTwoCells] ≠
      snapshotPass (processShapeStep [] contentOne)
        [Shape.tableS geom0 tPlace, Shape.tableS geom0 tTwoCells] := by
  decide

/-- C10: the table pass processes **every** table shape of the slide as a placeholder,
with no check for any marker convention — the anchor text is unconditionally sliced by
`[8:-2]` — and any table whose sliced, stripped name is not bound to a non-empty list
in the content map (ordinary template tables, or tables generated by an earlier
record's pass, included) has its anchor cell overwritten with the `n/a` literal and
all its runs set to the fixed 11-point size. -/
theorem claim10_every_table_processed (styleId : Chars) (content : Dict)
    (shapes : List Shape) (fuel : Nat) (hfuel : shapes.length ≤ fuel + 1)
    (hfail : ∀ g t, Shape.tableS g t ∈ shapes →
      isNonemptyArr ((dictGet content (anchorName t)).getD (.varr [])) = false) :
    ∃ out, livePass (processShapeStep styleId content) fuel [] shapes = some out ∧
      out.length = shapes.length ∧
      (∀ i p, shapes.get? i = some (.textS p) → out.get? i = some (.textS p)) ∧
      (∀ i g t, shapes.get? i = some (.tableS g t) →
        ∃ t', out.get? i = some (.tableS g t') ∧
          (0 < t.cells.length → 0 < (nthD [] t.cells 0).length →
            cellText (getCell t' 0 0) = NO_DATA) ∧
          (∀ q ∈ tableRuns t', q.size = some (ptEmu 11))) := by
  have hbody : ∀ s ∈ shapes, processShapeStep styleId content s =
      some (.keep (noDataShape s)) := by
    intro s hs
    cases s with
    | textS p => rfl
    | tableS gm t =>
      show (process_table_placeholder styleId content t).map _ = _
      rw [process_table_placeholder_nodata styleId content t (hfail gm t hs)]
      rfl
  refine ⟨shapes.map noDataShape,
    by simpa using livePass_map _ noDataShape shapes [] fuel hfuel hbody,
    by simp, ?_, ?_⟩
  · intro i p hi
    rw [List.get?_map, hi]
    rfl
  · intro i gm t hi
    refine ⟨set_table_font_size (setTableCellText t 0 0 NO_DATA) 11, ?_, ?_, ?_⟩
    · rw [List.get?_map, hi]
      rfl
    · intro h1 h2
      unfold set_table_font_size
      rw [getCell_mapTableRuns,
        cellText_cellMapRuns (fun r => { r with size := some (ptEmu 11) }) (fun q => rfl)]
      rw [getCell_setTableCellText_same t 0 0 NO_DATA h1 h2, cellText_mkTextCell]
    · intro q hq
      rcases mem_tableRuns_set_font hq with ⟨q', _, rfl⟩
      rfl

/-- C10 witness: a slide holding a text shape and one ordinary template table (anchor
text `T`, which carries no placeholder marker at all) — the table is processed anyway
and its anchor is overwritten with `n/a`. -/
theorem claim10_witness :
    ∃ out, livePass (processShapeStep [] []) 2 []
        [Shape.textS [], Shape.tableS geom0 tOneCell] = some out ∧
      out.length = 2 := by
  rcases claim10_every_table_processed [] [] [Shape.textS [], Shape.tableS geom0 tOneCell] 2
      (by decide)
      (by
        intro g t ht
        simp only [List.mem_cons, List.mem_singleton] at ht
        rcases ht with ht | ht | ht
        · exact Shape.noConfusion ht
        · injection ht with h1 h2
          subst h2
          decide
        · simp at ht)
    with ⟨out, h1, h2, _, _⟩
  exact ⟨out, h1, h2⟩

end GenPPTX
